import Mathlib

/-!
Verification of `torchsample/utils.py` (tensor utility functions).

Numeric code is shallowly embedded over exact rationals `ℚ` (reals `ℝ` where
the source takes square roots).  A tensor of shape `(C, H, W)` is embedded as
its size parameters together with a value function `ℕ → ℕ → ℕ → ℚ`; the flat
buffer of a contiguous tensor is the row-major linearization of that function.
Fallible control flow (the `mode` dispatch that can leave the result variable
unassigned) is embedded with `Option`.
-/

/-- Product of a list of dimension sizes (`prod(dims)`). -/
def prodList (dims : List ℕ) : ℕ := dims.foldr (· * ·) 1

/-- One step of the iterative product construction in `th_iterproduct`:
`result = [x+[y] for x in result for y in pool]`. -/
def iterStep (result : List (List ℕ)) (pool : List ℕ) : List (List ℕ) :=
  result.flatMap (fun x => pool.map (fun y => x ++ [y]))

/-- Embedding of `th_iterproduct(*args)` for integer arguments: each pool is
`torch.range(0, i-1)` (the values `0, …, i-1`), and the pools are folded with
`iterStep` starting from `[[]]`. -/
def th_iterproduct (args : List ℕ) : List (List ℕ) :=
  (args.map List.range).foldl iterStep [[]]

/-- Cartesian product of a list of pools, last pool varying fastest. -/
def cartesianOf : List (List ℕ) → List (List ℕ)
  | [] => [[]]
  | p :: ps => p.flatMap (fun i => (cartesianOf ps).map (fun t => i :: t))

/-- Cartesian product of index ranges `[0,d)` for the given dimension sizes. -/
def cartesian (dims : List ℕ) : List (List ℕ) :=
  cartesianOf (dims.map List.range)

theorem foldl_iterStep (pools : List (List ℕ)) :
    ∀ res : List (List ℕ),
      pools.foldl iterStep res =
        res.flatMap (fun x => (cartesianOf pools).map (fun t => x ++ t)) := by
  induction pools with
  | nil =>
      intro res
      simp [cartesianOf]
  | cons p ps ih =>
      intro res
      rw [List.foldl_cons, ih (iterStep res p)]
      simp only [iterStep, cartesianOf, List.flatMap_assoc, List.map_flatMap,
        List.flatMap_map, List.map_map]
      congr 1
      funext x
      congr 1
      funext y
      congr 1
      funext t
      simp

theorem th_iterproduct_eq_cartesian (args : List ℕ) :
    th_iterproduct args = cartesian args := by
  rw [th_iterproduct, cartesian, foldl_iterStep]
  simp [cartesianOf]

theorem cartesianOf_length (pools : List (List ℕ)) :
    (cartesianOf pools).length = prodList (pools.map List.length) := by
  induction pools with
  | nil => rfl
  | cons p ps ih =>
      rw [show cartesianOf (p :: ps)
            = p.flatMap (fun i => (cartesianOf ps).map (fun t => i :: t)) from rfl,
        List.length_flatMap]
      simp only [Function.comp_def, List.length_map, ih]
      rw [List.map_const', List.sum_replicate, smul_eq_mul]
      rfl

theorem cartesian_length (dims : List ℕ) :
    (cartesian dims).length = prodList dims := by
  rw [cartesian, cartesianOf_length, List.map_map]
  have h : List.length ∘ List.range = id := by
    funext n
    simp
  rw [h, List.map_id]

theorem length_bind_const {α : Type} (n m : ℕ) (f : ℕ → List α)
    (hf : ∀ a, (f a).length = m) :
    ((List.range n).flatMap f).length = n * m := by
  induction n with
  | zero => simp
  | succ k ih =>
      rw [List.range_succ]
      simp [ih, hf, Nat.succ_mul]

theorem getD_bind_const {α : Type} (n m : ℕ) (f : ℕ → List α)
    (hf : ∀ a, (f a).length = m) (i j : ℕ) (hi : i < n) (hj : j < m) (d : α) :
    ((List.range n).flatMap f).getD (i * m + j) d = (f i).getD j d := by
  induction n with
  | zero => omega
  | succ k ih =>
      rw [List.range_succ]
      rcases Nat.lt_succ_iff_lt_or_eq.mp hi with h | h
      · have hlen : ((List.range k).flatMap f).length = k * m :=
          length_bind_const k m f hf
        have hidx : i * m + j < k * m := by
          calc i * m + j < i * m + m := by omega
          _ = (i + 1) * m := by ring
          _ ≤ k * m := Nat.mul_le_mul_right m h
        rw [List.flatMap_append, List.getD_append _ _ _ _ (by omega), ih h]
      · subst h
        have hlen : ((List.range i).flatMap f).length = i * m :=
          length_bind_const i m f hf
        rw [List.flatMap_append, List.getD_append_right _ _ _ _ (by omega)]
        simp [hlen, Nat.add_sub_cancel_left]

theorem cartesian_cons (d : ℕ) (rest : List ℕ) :
    cartesian (d :: rest)
      = (List.range d).flatMap (fun i => (cartesian rest).map (fun t => i :: t)) := rfl

theorem cartesian_cons_getD (d : ℕ) (rest : List ℕ) (i r : ℕ)
    (hi : i < d) (hr : r < prodList rest) :
    (cartesian (d :: rest)).getD (i * prodList rest + r) []
      = i :: (cartesian rest).getD r [] := by
  rw [cartesian_cons,
    getD_bind_const d (prodList rest) _
      (fun a => by rw [List.length_map, cartesian_length]) i r hi hr]
  have hlen : r < (cartesian rest).length := by rw [cartesian_length]; exact hr
  rw [List.getD_eq_getElem?_getD, List.getElem?_map, List.getElem?_eq_getElem hlen,
    List.getD_eq_getElem?_getD, List.getElem?_eq_getElem hlen]
  rfl

theorem cartesian_nil_getD : (cartesian []).getD 0 [] = [] := rfl

theorem cartesian1_getD (a i : ℕ) (hi : i < a) :
    (cartesian [a]).getD i [] = [i] := by
  have h0 : prodList ([] : List ℕ) = 1 := rfl
  conv_lhs => rw [show i = i * prodList ([] : List ℕ) + 0 by rw [h0]; ring]
  rw [cartesian_cons_getD a [] i 0 hi (by rw [h0]; omega), cartesian_nil_getD]

theorem cartesian3_getD (a b c i j k : ℕ) (hi : i < a) (hj : j < b) (hk : k < c) :
    (cartesian [a, b, c]).getD (i * (b * c) + j * c + k) [] = [i, j, k] := by
  have h1 : prodList [c] = c := by simp [prodList]
  have h2 : prodList [b, c] = b * c := by simp [prodList]
  have hjk : j * c + k < b * c := by
    calc j * c + k < j * c + c := by omega
    _ = (j + 1) * c := by ring
    _ ≤ b * c := Nat.mul_le_mul_right c hj
  have e1 : i * (b * c) + j * c + k = i * prodList [b, c] + (j * prodList [c] + k) := by
    rw [h1, h2]; ring
  rw [e1, cartesian_cons_getD a [b, c] i _ hi (by rw [h1, h2]; exact hjk),
    cartesian_cons_getD b [c] j _ hj (by rw [h1]; omega),
    cartesian1_getD c k hk]

theorem cartesian2_getD (a b i j : ℕ) (hi : i < a) (hj : j < b) :
    (cartesian [a, b]).getD (i * b + j) [] = [i, j] := by
  have h1 : prodList [b] = b := by simp [prodList]
  have e1 : i * b + j = i * prodList [b] + j := by rw [h1]
  rw [e1, cartesian_cons_getD a [b] i j hi (by rw [h1]; omega),
    cartesian1_getD b j hj]

theorem cartesian_nodup (dims : List ℕ) : (cartesian dims).Nodup := by
  induction dims with
  | nil => simp [cartesian, cartesianOf]
  | cons d rest ih =>
      rw [cartesian_cons, List.nodup_flatMap]
      constructor
      · intro x _
        exact ih.map (fun t1 t2 h => by injection h)
      · apply (List.pairwise_lt_range d).imp
        intro x y hxy row hrow hrow'
        rcases List.mem_map.mp hrow with ⟨t, _, rfl⟩
        rcases List.mem_map.mp hrow' with ⟨t', _, ht'⟩
        exact absurd (List.cons.injEq _ _ _ _ ▸ ht'.symm).1 (Nat.ne_of_lt hxy)

theorem cartesian3_mem (a b c : ℕ) (row : List ℕ) (h : row ∈ cartesian [a, b, c]) :
    ∃ i j k, i < a ∧ j < b ∧ k < c ∧ row = [i, j, k] := by
  rw [cartesian_cons] at h
  obtain ⟨i, hi, hrow⟩ := List.mem_flatMap.mp h
  obtain ⟨t, ht, rfl⟩ := List.mem_map.mp hrow
  rw [cartesian_cons] at ht
  obtain ⟨j, hj, ht2⟩ := List.mem_flatMap.mp ht
  obtain ⟨s, hs, rfl⟩ := List.mem_map.mp ht2
  rw [cartesian_cons] at hs
  obtain ⟨k, hk, hs2⟩ := List.mem_flatMap.mp hs
  obtain ⟨u, hu, rfl⟩ := List.mem_map.mp hs2
  obtain rfl : u = [] := by simpa [cartesian, cartesianOf] using hu
  exact ⟨i, j, k, List.mem_range.mp hi, List.mem_range.mp hj, List.mem_range.mp hk, rfl⟩

/-- C2: `th_iterproduct a b c` has exactly `a*b*c` rows, the rows are pairwise
distinct, every row is a triple `[i, j, k]` with `i < a`, `j < b`, `k < c`, and
row number `i*(b*c) + j*c + k` is exactly `[i, j, k]`, i.e. the rows are in
row-major (C) order with the last supplied dimension varying fastest. -/
theorem C2_iterproduct_rowmajor (a b c : ℕ) (ha : 0 < a) (hb : 0 < b) (hc : 0 < c) :
    (th_iterproduct [a, b, c]).length = a * b * c ∧
    (th_iterproduct [a, b, c]).Nodup ∧
    (∀ row ∈ th_iterproduct [a, b, c], ∃ i j k, i < a ∧ j < b ∧ k < c ∧ row = [i, j, k]) ∧
    (∀ i j k, i < a → j < b → k < c →
      (th_iterproduct [a, b, c]).getD (i * (b * c) + j * c + k) [] = [i, j, k]) := by
  rw [th_iterproduct_eq_cartesian]
  refine ⟨?_, cartesian_nodup _, cartesian3_mem a b c, ?_⟩
  · rw [cartesian_length]
    simp [prodList]
    ring
  · intro i j k hi hj hk
    exact cartesian3_getD a b c i j k hi hj hk

theorem C2_iterproduct_witness :
    (th_iterproduct [2, 3, 2]).length = 2 * 3 * 2 ∧
    (th_iterproduct [2, 3, 2]).getD (1 * (3 * 2) + 2 * 2 + 1) [] = [1, 2, 1] := by
  have h := C2_iterproduct_rowmajor 2 3 2 (by decide) (by decide) (by decide)
  exact ⟨h.1, h.2.2.2 1 2 1 (by decide) (by decide) (by decide)⟩

/-- Row-major strides of a contiguous tensor of the given shape
(`x.stride()`): the stride of an axis is the product of the following sizes. -/
def strides : List ℕ → List ℕ
  | [] => []
  | _ :: rest => prodList rest :: strides rest

/-- Integer dot product of a coordinate row with a stride vector
(`coords.mv(torch.LongTensor(x.stride()))` acts row by row). -/
def dotZ (r s : List ℤ) : ℤ := (List.zipWith (· * ·) r s).sum

/-- Gather of one coordinate row: the flat offset is `Σ coord_i · stride_i`;
`index_select` on the flattened tensor fails for offsets outside
`[0, numel)`, embedded here by returning the default value `0`. -/
def gatherOne (shape : List ℕ) (data : ℕ → ℚ) (r : List ℤ) : ℚ :=
  let f := dotZ r ((strides shape).map Int.ofNat)
  if 0 ≤ f ∧ f < (prodList shape : ℤ) then data f.toNat else 0

/-- Embedding of `th_gather_nd(x, coords)`: each coordinate row is converted
to a flat buffer offset using the stride vector, and the offsets are selected
from the flattened tensor (`data` is the flat buffer of `x`). -/
def th_gather_nd (shape : List ℕ) (data : ℕ → ℚ) (coords : List (List ℤ)) : List ℚ :=
  coords.map (gatherOne shape data)

/-- Natural-number flat offset of a coordinate tuple. -/
def dotN (r s : List ℕ) : ℕ := (List.zipWith (· * ·) r s).sum

/-- Element of a tensor at a multi-dimensional coordinate, defined without
stride arithmetic: repeatedly select the coordinate-th block of the buffer. -/
def tensorGet : List ℕ → (ℕ → ℚ) → List ℕ → ℚ
  | [], data, _ => data 0
  | _ :: rest, data, c :: cs =>
      tensorGet rest (fun n => data (c * prodList rest + n)) cs
  | _ :: _, data, [] => data 0

theorem dotZ_ofNat (r : List ℕ) : ∀ s : List ℕ,
    dotZ (r.map Int.ofNat) (s.map Int.ofNat) = (dotN r s : ℤ) := by
  induction r with
  | nil => intro s; simp [dotZ, dotN]
  | cons c cs ih =>
      intro s
      cases s with
      | nil => simp [dotZ, dotN]
      | cons d ds =>
          have h1 : dotZ ((c :: cs).map Int.ofNat) ((d :: ds).map Int.ofNat)
              = (c : ℤ) * d + dotZ (cs.map Int.ofNat) (ds.map Int.ofNat) := by
            simp [dotZ]
          have h2 : (dotN (c :: cs) (d :: ds) : ℤ) = (c : ℤ) * d + (dotN cs ds : ℤ) := by
            have : dotN (c :: cs) (d :: ds) = c * d + dotN cs ds := by simp [dotN]
            rw [this]
            push_cast
            ring
          rw [h1, h2, ih ds]

theorem gather_core {row shape : List ℕ} (h : List.Forall₂ (· < ·) row shape) :
    ∀ data : ℕ → ℚ,
      dotN row (strides shape) < prodList shape ∧
      tensorGet shape data row = data (dotN row (strides shape)) := by
  induction h with
  | nil =>
      intro data
      exact ⟨by simp [dotN, strides, prodList], rfl⟩
  | @cons c d cs rest hcd htail ih =>
      intro data
      have IH := ih (fun n => data (c * prodList rest + n))
      have hdot : dotN (c :: cs) (strides (d :: rest))
          = c * prodList rest + dotN cs (strides rest) := by
        simp [dotN, strides]
      constructor
      · rw [hdot]
        have hstep : c * prodList rest + dotN cs (strides rest)
            < (c + 1) * prodList rest := by
          have := IH.1
          calc c * prodList rest + dotN cs (strides rest)
              < c * prodList rest + prodList rest := by omega
          _ = (c + 1) * prodList rest := by ring
        calc c * prodList rest + dotN cs (strides rest)
            < (c + 1) * prodList rest := hstep
        _ ≤ d * prodList rest := Nat.mul_le_mul_right _ hcd
        _ = prodList (d :: rest) := rfl
      · show tensorGet rest (fun n => data (c * prodList rest + n)) cs
            = data (dotN (c :: cs) (strides (d :: rest)))
        rw [IH.2, hdot]

theorem gatherOne_ofNat (shape : List ℕ) (data : ℕ → ℚ) (row : List ℕ)
    (h : List.Forall₂ (· < ·) row shape) :
    gatherOne shape data (row.map Int.ofNat) = data (dotN row (strides shape)) := by
  have hc := gather_core h data
  unfold gatherOne
  rw [dotZ_ofNat]
  rw [if_pos ⟨Int.ofNat_nonneg _, by exact_mod_cast hc.1⟩]
  simp

/-- C4: for in-bounds integer coordinates, gathering by the row-major stride
formula `offset = Σ coord_i · stride_i` on the flattened tensor selects, for
each coordinate row, exactly the element of the tensor at that
multi-dimensional coordinate. -/
theorem C4_gather_nd_rowmajor (shape : List ℕ) (data : ℕ → ℚ) (coords : List (List ℕ))
    (h : ∀ row ∈ coords, List.Forall₂ (· < ·) row shape) :
    th_gather_nd shape data (coords.map (fun r => r.map Int.ofNat))
      = coords.map (tensorGet shape data) := by
  unfold th_gather_nd
  rw [List.map_map]
  apply List.map_congr_left
  intro row hrow
  show gatherOne shape data (row.map Int.ofNat) = tensorGet shape data row
  rw [gatherOne_ofNat shape data row (h row hrow), (gather_core (h row hrow) data).2]

theorem C4_gather_nd_witness :
    (∀ row ∈ [[1, 2], [0, 1]], List.Forall₂ (· < ·) row [2, 3]) ∧
    th_gather_nd [2, 3] (fun n => (n : ℚ))
        ([[1, 2], [0, 1]].map (fun r => r.map Int.ofNat))
      = [[1, 2], [0, 1]].map (tensorGet [2, 3] (fun n => (n : ℚ))) := by
  constructor
  · decide
  · exact C4_gather_nd_rowmajor [2, 3] (fun n => (n : ℚ)) [[1, 2], [0, 1]] (by decide)

/-- Clamp `torch.clamp(v, lo, hi) = min(max(v, lo), hi)`. -/
def clampQ (v lo hi : ℚ) : ℚ := min (max v lo) hi

/-- Round half away from zero, as `torch.round` of this era does on exactly
representable inputs. -/
def roundQ (q : ℚ) : ℤ := if 0 ≤ q then ⌊q + 1 / 2⌋ else ⌈q - 1 / 2⌉

/-- Flat buffer of one contiguous `(H, W)` channel (`th_flatten(input[i])`). -/
def flat2 (W : ℕ) (xi : ℕ → ℕ → ℚ) : ℕ → ℚ := fun f => xi (f / W) (f % W)

/-- Coordinate grid over the spatial dimensions of a `(C, H, W)` tensor
(`th_iterproduct(x.size(1), x.size(2)).float()`), one `(x, y)` row per
pixel. -/
def gridCoords2 (H W : ℕ) : List (ℚ × ℚ) :=
  (th_iterproduct [H, W]).map (fun r => (((r.getD 0 0 : ℕ) : ℚ), ((r.getD 1 0 : ℕ) : ℚ)))

/-- Affine map of one coordinate row: `new_coords = coords · Aᵀ + b` with
`A = matrix[:, :2, :2]` and `b = matrix[:, :2, 2]`. -/
def affMap2 (M : ℕ → ℕ → ℚ) (c : ℚ × ℚ) : ℚ × ℚ :=
  (M 0 0 * c.1 + M 0 1 * c.2 + M 0 2,
   M 1 0 * c.1 + M 1 1 * c.2 + M 1 2)

/-- Centering shift `x.size(i) / 2. + 0.5` used when `center=True`. -/
def centerOffset (s : ℕ) : ℚ := (s : ℚ) / 2 + 1 / 2

/-- Coordinate transformation applied by `th_affine_2d` to one grid row:
optionally shift the center to the origin, apply the affine map, and shift
back. -/
def transCoord2 (H W : ℕ) (M : ℕ → ℕ → ℚ) (center : Bool) (c : ℚ × ℚ) : ℚ × ℚ :=
  let c0 := if center then (c.1 - centerOffset H, c.2 - centerOffset W) else c
  let c1 := affMap2 M c0
  if center then (c1.1 + centerOffset H, c1.2 + centerOffset W) else c1

/-- Transformed coordinate rows of `th_affine_2d` for one channel. -/
def newCoords2 (H W : ℕ) (M : ℕ → ℕ → ℚ) (center : Bool) : List (ℚ × ℚ) :=
  (gridCoords2 H W).map (transCoord2 H W M center)

/-- Embedding of `th_nearest_interp_2d` on one channel: clamp each coordinate
into the image bounds, round to the nearest integer coordinate, and gather. -/
def th_nearest_interp_2d (H W : ℕ) (xi : ℕ → ℕ → ℚ) (coords : List (ℚ × ℚ)) : List ℚ :=
  th_gather_nd [H, W] (flat2 W xi)
    (coords.map (fun c => [roundQ (clampQ c.1 0 ((H : ℚ) - 1)),
                           roundQ (clampQ c.2 0 ((W : ℚ) - 1))]))

/-- Clamped coordinates of `th_bilinear_interp_2d` (`xc`, `yc`). -/
def clamped2 (H W : ℕ) (c : ℚ × ℚ) : ℚ × ℚ :=
  (clampQ c.1 0 ((H : ℚ) - 1), clampQ c.2 0 ((W : ℚ) - 1))

/-- Corner `coords_lt` (floor, floor) of the bilinear gather. -/
def c_lt2 (H W : ℕ) (c : ℚ × ℚ) : List ℤ :=
  [⌊(clamped2 H W c).1⌋, ⌊(clamped2 H W c).2⌋]

/-- Corner `coords_rb` (ceil, ceil) of the bilinear gather. -/
def c_rb2 (H W : ℕ) (c : ℚ × ℚ) : List ℤ :=
  [⌈(clamped2 H W c).1⌉, ⌈(clamped2 H W c).2⌉]

/-- Corner `coords_lb` (floor, ceil) of the bilinear gather. -/
def c_lb2 (H W : ℕ) (c : ℚ × ℚ) : List ℤ :=
  [⌊(clamped2 H W c).1⌋, ⌈(clamped2 H W c).2⌉]

/-- Corner `coords_rt` (ceil, floor) of the bilinear gather. -/
def c_rt2 (H W : ℕ) (c : ℚ × ℚ) : List ℤ :=
  [⌈(clamped2 H W c).1⌉, ⌊(clamped2 H W c).2⌋]

/-- Gathered corner value `vals_lt`. -/
def vals_lt2 (H W : ℕ) (xi : ℕ → ℕ → ℚ) (c : ℚ × ℚ) : ℚ :=
  gatherOne [H, W] (flat2 W xi) (c_lt2 H W c)

/-- Gathered corner value `vals_rb`. -/
def vals_rb2 (H W : ℕ) (xi : ℕ → ℕ → ℚ) (c : ℚ × ℚ) : ℚ :=
  gatherOne [H, W] (flat2 W xi) (c_rb2 H W c)

/-- Gathered corner value `vals_lb`. -/
def vals_lb2 (H W : ℕ) (xi : ℕ → ℕ → ℚ) (c : ℚ × ℚ) : ℚ :=
  gatherOne [H, W] (flat2 W xi) (c_lb2 H W c)

/-- Gathered corner value `vals_rt`. -/
def vals_rt2 (H W : ℕ) (xi : ℕ → ℕ → ℚ) (c : ℚ × ℚ) : ℚ :=
  gatherOne [H, W] (flat2 W xi) (c_rt2 H W c)

/-- One output value of `th_bilinear_interp_2d`: blend the four gathered
corner values along x then y with the fractional offsets
`coords - coords_lt`. -/
def th_bilinear_point_2d (H W : ℕ) (xi : ℕ → ℕ → ℚ) (c : ℚ × ℚ) : ℚ :=
  let dx := (clamped2 H W c).1 - ((⌊(clamped2 H W c).1⌋ : ℤ) : ℚ)
  let dy := (clamped2 H W c).2 - ((⌊(clamped2 H W c).2⌋ : ℤ) : ℚ)
  let vt := vals_lt2 H W xi c + (vals_rt2 H W xi c - vals_lt2 H W xi c) * dx
  let vb := vals_lb2 H W xi c + (vals_rb2 H W xi c - vals_lb2 H W xi c) * dx
  vt + (vb - vt) * dy

/-- Embedding of `th_bilinear_interp_2d` on one channel. -/
def th_bilinear_interp_2d (H W : ℕ) (xi : ℕ → ℕ → ℚ) (coords : List (ℚ × ℚ)) : List ℚ :=
  coords.map (th_bilinear_point_2d H W xi)

/-- Embedding of `th_affine_2d` on a `(C, H, W)` tensor with one matrix per
channel (a single matrix is the constant-in-`i` case).  The result of
`view_as(input)` at channel `i`, pixel `(h, w)` is entry `h*W + w` of the
flat interpolation output.  A `mode` other than the two supported ones
leaves the output variable unassigned, embedded as `none`. -/
def th_affine_2d (C H W : ℕ) (x : ℕ → ℕ → ℕ → ℚ) (M : ℕ → ℕ → ℕ → ℚ)
    (mode : String) (center : Bool) : Option (ℕ → ℕ → ℕ → ℚ) :=
  if mode = "nearest" then
    some (fun i h w =>
      (th_nearest_interp_2d H W (x i) (newCoords2 H W (M i) center)).getD (h * W + w) 0)
  else if mode = "bilinear" then
    some (fun i h w =>
      (th_bilinear_interp_2d H W (x i) (newCoords2 H W (M i) center)).getD (h * W + w) 0)
  else none

/-- Output value of `th_affine_2d` at channel `i`, pixel `(h, w)`. -/
def affine2dAt (C H W : ℕ) (x M : ℕ → ℕ → ℕ → ℚ) (mode : String) (center : Bool)
    (i h w : ℕ) : Option ℚ :=
  (th_affine_2d C H W x M mode center).map (fun g => g i h w)

/-- Pure-translation affine matrix: identity linear part, translation
`(t0, t1)`. -/
def transM2 (t0 t1 : ℚ) : ℕ → ℕ → ℚ
  | 0, 0 => 1
  | 0, 1 => 0
  | 0, 2 => t0
  | 1, 0 => 0
  | 1, 1 => 1
  | 1, 2 => t1
  | _, _ => 0

/-- Clamp a coordinate into `[0, s-1]`, round to the nearest integer, and view
it as an index: the integer pixel that nearest-neighbour sampling reads. -/
def clampRoundIdx (q : ℚ) (s : ℕ) : ℕ := (roundQ (clampQ q 0 ((s : ℚ) - 1))).toNat

theorem getD_map_of_lt {α β : Type} (l : List α) (f : α → β) (n : ℕ)
    (h : n < l.length) (d : β) (d₀ : α) :
    (l.map f).getD n d = f (l.getD n d₀) := by
  rw [List.getD_eq_getElem?_getD, List.getElem?_map, List.getElem?_eq_getElem h,
    List.getD_eq_getElem?_getD, List.getElem?_eq_getElem h]
  rfl

theorem idx2_lt (H W h w : ℕ) (hh : h < H) (hw : w < W) : h * W + w < H * W := by
  calc h * W + w < h * W + W := by omega
  _ = (h + 1) * W := by ring
  _ ≤ H * W := Nat.mul_le_mul_right W hh

theorem prodList2 (H W : ℕ) : prodList [H, W] = H * W := by simp [prodList]

theorem gridCoords2_length (H W : ℕ) : (gridCoords2 H W).length = H * W := by
  unfold gridCoords2
  rw [List.length_map, th_iterproduct_eq_cartesian, cartesian_length, prodList2]

theorem gridCoords2_getD (H W h w : ℕ) (hh : h < H) (hw : w < W) :
    (gridCoords2 H W).getD (h * W + w) (0, 0) = ((h : ℚ), (w : ℚ)) := by
  unfold gridCoords2
  rw [th_iterproduct_eq_cartesian]
  have hlen : h * W + w < (cartesian [H, W]).length := by
    rw [cartesian_length, prodList2]
    exact idx2_lt H W h w hh hw
  rw [getD_map_of_lt _ _ _ hlen _ [], cartesian2_getD H W h w hh hw]
  rfl

theorem newCoords2_length (H W : ℕ) (M : ℕ → ℕ → ℚ) (center : Bool) :
    (newCoords2 H W M center).length = H * W := by
  unfold newCoords2
  rw [List.length_map, gridCoords2_length]

theorem newCoords2_getD (H W h w : ℕ) (M : ℕ → ℕ → ℚ) (center : Bool)
    (hh : h < H) (hw : w < W) :
    (newCoords2 H W M center).getD (h * W + w) (0, 0)
      = transCoord2 H W M center ((h : ℚ), (w : ℚ)) := by
  unfold newCoords2
  have hlen : h * W + w < (gridCoords2 H W).length := by
    rw [gridCoords2_length]
    exact idx2_lt H W h w hh hw
  rw [getD_map_of_lt _ _ _ hlen _ (0, 0), gridCoords2_getD H W h w hh hw]

theorem clampQ_mem (v lo hi : ℚ) (hlh : lo ≤ hi) :
    lo ≤ clampQ v lo hi ∧ clampQ v lo hi ≤ hi :=
  ⟨le_min (le_max_right v lo) hlh, min_le_right _ _⟩

theorem clampQ_eq_self (v lo hi : ℚ) (h1 : lo ≤ v) (h2 : v ≤ hi) :
    clampQ v lo hi = v := by
  unfold clampQ
  rw [max_eq_left h1, min_eq_left h2]

theorem roundQ_intCast (z : ℤ) : roundQ (z : ℚ) = z := by
  unfold roundQ
  by_cases h : (0 : ℚ) ≤ (z : ℚ)
  · rw [if_pos h, Int.floor_int_add]
    norm_num
  · rw [if_neg h, show (z : ℚ) - 1 / 2 = -1 / 2 + z by ring, Int.ceil_add_int]
    norm_num

theorem roundQ_natCast (n : ℕ) : roundQ (n : ℚ) = n := by
  rw [show ((n : ℚ)) = ((n : ℤ) : ℚ) by push_cast; ring, roundQ_intCast]

theorem roundQ_bounds (q : ℚ) (B : ℤ) (h0 : 0 ≤ q) (hB : q ≤ (B : ℚ)) :
    0 ≤ roundQ q ∧ roundQ q ≤ B := by
  unfold roundQ
  rw [if_pos h0]
  constructor
  · exact Int.le_floor.mpr (by push_cast; linarith)
  · have h : ⌊q + 1 / 2⌋ < B + 1 := Int.floor_lt.mpr (by push_cast; linarith)
    omega

theorem gatherOne2_eval (H W : ℕ) (xi : ℕ → ℕ → ℚ) (a b : ℤ)
    (ha0 : 0 ≤ a) (ha1 : a ≤ (H : ℤ) - 1) (hb0 : 0 ≤ b) (hb1 : b ≤ (W : ℤ) - 1) :
    gatherOne [H, W] (flat2 W xi) [a, b] = xi a.toNat b.toNat := by
  have hW : 0 < W := by omega
  have hdot : dotZ [a, b] ((strides [H, W]).map Int.ofNat) = a * W + b := by
    have hs : strides [H, W] = [W * 1, 1] := by simp [strides, prodList]
    rw [hs]
    simp [dotZ]
  have haA : a = (a.toNat : ℤ) := (Int.toNat_of_nonneg ha0).symm
  have hbB : b = (b.toNat : ℤ) := (Int.toNat_of_nonneg hb0).symm
  have hAH : a.toNat < H := by omega
  have hBW : b.toNat < W := by omega
  have hidx : a.toNat * W + b.toNat < H * W := idx2_lt H W a.toNat b.toNat hAH hBW
  show (if 0 ≤ dotZ [a, b] ((strides [H, W]).map Int.ofNat) ∧
          dotZ [a, b] ((strides [H, W]).map Int.ofNat) < (prodList [H, W] : ℤ)
        then flat2 W xi (dotZ [a, b] ((strides [H, W]).map Int.ofNat)).toNat else 0)
      = xi a.toNat b.toNat
  rw [hdot, prodList2]
  have hf : a * W + b = ((a.toNat * W + b.toNat : ℕ) : ℤ) := by
    push_cast
    rw [Int.toNat_of_nonneg ha0, Int.toNat_of_nonneg hb0]
  rw [if_pos ⟨by rw [hf]; positivity, by rw [hf]; exact_mod_cast hidx⟩]
  rw [hf, Int.toNat_natCast]
  unfold flat2
  rw [show a.toNat * W + b.toNat = W * a.toNat + b.toNat by ring,
    Nat.mul_add_div hW, Nat.div_eq_of_lt hBW, Nat.add_zero,
    Nat.mul_add_mod, Nat.mod_eq_of_lt hBW]

theorem nearestSample2_eval (H W : ℕ) (xi : ℕ → ℕ → ℚ) (cx cy : ℚ)
    (hH : 1 ≤ H) (hW : 1 ≤ W) :
    gatherOne [H, W] (flat2 W xi)
        [roundQ (clampQ cx 0 ((H : ℚ) - 1)), roundQ (clampQ cy 0 ((W : ℚ) - 1))]
      = xi (clampRoundIdx cx H) (clampRoundIdx cy W) := by
  have hH' : (0 : ℚ) ≤ (H : ℚ) - 1 := by
    have h1 : (1 : ℚ) ≤ (H : ℚ) := by exact_mod_cast hH
    linarith
  have hW' : (0 : ℚ) ≤ (W : ℚ) - 1 := by
    have h1 : (1 : ℚ) ≤ (W : ℚ) := by exact_mod_cast hW
    linarith
  have hcx := clampQ_mem cx 0 ((H : ℚ) - 1) hH'
  have hcy := clampQ_mem cy 0 ((W : ℚ) - 1) hW'
  have hrx := roundQ_bounds (clampQ cx 0 ((H : ℚ) - 1)) ((H : ℤ) - 1) hcx.1
    (by push_cast; linarith [hcx.2])
  have hry := roundQ_bounds (clampQ cy 0 ((W : ℚ) - 1)) ((W : ℤ) - 1) hcy.1
    (by push_cast; linarith [hcy.2])
  exact gatherOne2_eval H W xi _ _ hrx.1 hrx.2 hry.1 hry.2

theorem transCoord2_id (H W : ℕ) (M : ℕ → ℕ → ℚ) (center : Bool)
    (h00 : M 0 0 = 1) (h01 : M 0 1 = 0) (h02 : M 0 2 = 0)
    (h10 : M 1 0 = 0) (h11 : M 1 1 = 1) (h12 : M 1 2 = 0) (c : ℚ × ℚ) :
    transCoord2 H W M center c = c := by
  obtain ⟨c1, c2⟩ := c
  cases center <;>
    apply Prod.ext <;>
    simp [transCoord2, affMap2, h00, h01, h02, h10, h11, h12] <;>
    ring

theorem transCoord2_translation (H W : ℕ) (t0 t1 : ℚ) (center : Bool) (c : ℚ × ℚ) :
    transCoord2 H W (transM2 t0 t1) center c = (c.1 + t0, c.2 + t1) := by
  obtain ⟨c1, c2⟩ := c
  cases center <;>
    apply Prod.ext <;>
    simp [transCoord2, affMap2, transM2] <;>
    ring

theorem affine2dAt_nearest (C H W : ℕ) (x M : ℕ → ℕ → ℕ → ℚ) (center : Bool)
    (i h w : ℕ) (hh : h < H) (hw : w < W) :
    affine2dAt C H W x M "nearest" center i h w
      = some (gatherOne [H, W] (flat2 W (x i))
          [roundQ (clampQ (transCoord2 H W (M i) center ((h : ℚ), (w : ℚ))).1 0 ((H : ℚ) - 1)),
           roundQ (clampQ (transCoord2 H W (M i) center ((h : ℚ), (w : ℚ))).2 0 ((W : ℚ) - 1))]) := by
  unfold affine2dAt th_affine_2d
  rw [if_pos rfl]
  rw [Option.map_some']
  congr 1
  dsimp only
  unfold th_nearest_interp_2d th_gather_nd
  rw [List.map_map]
  have hlen : h * W + w < (newCoords2 H W (M i) center).length := by
    rw [newCoords2_length]
    exact idx2_lt H W h w hh hw
  rw [getD_map_of_lt _ _ _ hlen _ (0, 0), newCoords2_getD H W h w (M i) center hh hw]
  rfl

theorem affine2dAt_bilinear (C H W : ℕ) (x M : ℕ → ℕ → ℕ → ℚ) (center : Bool)
    (i h w : ℕ) (hh : h < H) (hw : w < W) :
    affine2dAt C H W x M "bilinear" center i h w
      = some (th_bilinear_point_2d H W (x i)
          (transCoord2 H W (M i) center ((h : ℚ), (w : ℚ)))) := by
  unfold affine2dAt th_affine_2d
  rw [if_neg (by decide), if_pos rfl]
  rw [Option.map_some']
  congr 1
  dsimp only
  unfold th_bilinear_interp_2d
  have hlen : h * W + w < (newCoords2 H W (M i) center).length := by
    rw [newCoords2_length]
    exact idx2_lt H W h w hh hw
  rw [getD_map_of_lt _ _ _ hlen _ (0, 0), newCoords2_getD H W h w (M i) center hh hw]

/-- Flat buffer of one contiguous `(D, H, W)` channel. -/
def flat3 (H W : ℕ) (xi : ℕ → ℕ → ℕ → ℚ) : ℕ → ℚ :=
  fun f => xi (f / (H * W)) (f % (H * W) / W) (f % W)

/-- Coordinate grid over the spatial dimensions of a `(C, D, H, W)` tensor
(`th_iterproduct(x.size(1), x.size(2), x.size(3)).float()`). -/
def gridCoords3 (D H W : ℕ) : List (ℚ × ℚ × ℚ) :=
  (th_iterproduct [D, H, W]).map
    (fun r => (((r.getD 0 0 : ℕ) : ℚ), ((r.getD 1 0 : ℕ) : ℚ), ((r.getD 2 0 : ℕ) : ℚ)))

/-- Affine map of one 3D coordinate row: `new_coords = coords · Aᵀ + b` with
`A = matrix[:, :3, :3]` and `b = matrix[:, :3, 3]`. -/
def affMap3 (M : ℕ → ℕ → ℚ) (c : ℚ × ℚ × ℚ) : ℚ × ℚ × ℚ :=
  (M 0 0 * c.1 + M 0 1 * c.2.1 + M 0 2 * c.2.2 + M 0 3,
   M 1 0 * c.1 + M 1 1 * c.2.1 + M 1 2 * c.2.2 + M 1 3,
   M 2 0 * c.1 + M 2 1 * c.2.1 + M 2 2 * c.2.2 + M 2 3)

/-- Coordinate transformation applied by `th_affine_3d` to one grid row. -/
def transCoord3 (D H W : ℕ) (M : ℕ → ℕ → ℚ) (center : Bool) (c : ℚ × ℚ × ℚ) :
    ℚ × ℚ × ℚ :=
  let c0 := if center then
      (c.1 - centerOffset D, c.2.1 - centerOffset H, c.2.2 - centerOffset W)
    else c
  let c1 := affMap3 M c0
  if center then
    (c1.1 + centerOffset D, c1.2.1 + centerOffset H, c1.2.2 + centerOffset W)
  else c1

/-- Transformed coordinate rows of `th_affine_3d` for one channel. -/
def newCoords3 (D H W : ℕ) (M : ℕ → ℕ → ℚ) (center : Bool) : List (ℚ × ℚ × ℚ) :=
  (gridCoords3 D H W).map (transCoord3 D H W M center)

/-- Embedding of `th_nearest_interp_3d` on one channel. -/
def th_nearest_interp_3d (D H W : ℕ) (xi : ℕ → ℕ → ℕ → ℚ)
    (coords : List (ℚ × ℚ × ℚ)) : List ℚ :=
  th_gather_nd [D, H, W] (flat3 H W xi)
    (coords.map (fun c => [roundQ (clampQ c.1 0 ((D : ℚ) - 1)),
                           roundQ (clampQ c.2.1 0 ((H : ℚ) - 1)),
                           roundQ (clampQ c.2.2 0 ((W : ℚ) - 1))]))

/-- Clamped coordinates of `th_bilinear_interp_3d`: each axis is clamped to
`[0, size - 1.00001]`. -/
def clamped3 (D H W : ℕ) (c : ℚ × ℚ × ℚ) : ℚ × ℚ × ℚ :=
  (clampQ c.1 0 ((D : ℚ) - 100001 / 100000),
   clampQ c.2.1 0 ((H : ℚ) - 100001 / 100000),
   clampQ c.2.2 0 ((W : ℚ) - 100001 / 100000))

/-- Integer corner coordinate of the trilinear gather: the floor corner
(`x0 = x.floor()`) plus an offset of `0` or `1` per axis (`x1 = x0 + 1`). -/
def cornerIdx3 (D H W : ℕ) (c : ℚ × ℚ × ℚ) (ex ey ez : ℤ) : List ℤ :=
  [⌊(clamped3 D H W c).1⌋ + ex, ⌊(clamped3 D H W c).2.1⌋ + ey,
   ⌊(clamped3 D H W c).2.2⌋ + ez]

/-- Gathered corner value `vals_exeyez` of the trilinear interpolation. -/
def vals3 (D H W : ℕ) (xi : ℕ → ℕ → ℕ → ℚ) (c : ℚ × ℚ × ℚ) (ex ey ez : ℤ) : ℚ :=
  gatherOne [D, H, W] (flat3 H W xi) (cornerIdx3 D H W c ex ey ez)

/-- One output value of `th_bilinear_interp_3d`: gather the eight corner
values and blend linearly along x, then y, then z, with the fractional
distances `xd = (x-x0)/(x1-x0)` (and likewise `yd`, `zd`). -/
def th_bilinear_point_3d (D H W : ℕ) (xi : ℕ → ℕ → ℕ → ℚ) (c : ℚ × ℚ × ℚ) : ℚ :=
  let q := clamped3 D H W c
  let x0 : ℚ := ((⌊q.1⌋ : ℤ) : ℚ)
  let y0 : ℚ := ((⌊q.2.1⌋ : ℤ) : ℚ)
  let z0 : ℚ := ((⌊q.2.2⌋ : ℤ) : ℚ)
  let xd := (q.1 - x0) / (x0 + 1 - x0)
  let yd := (q.2.1 - y0) / (y0 + 1 - y0)
  let zd := (q.2.2 - z0) / (z0 + 1 - z0)
  let c00 := vals3 D H W xi c 0 0 0 * (1 - xd) + vals3 D H W xi c 1 0 0 * xd
  let c01 := vals3 D H W xi c 0 0 1 * (1 - xd) + vals3 D H W xi c 1 0 1 * xd
  let c10 := vals3 D H W xi c 0 1 0 * (1 - xd) + vals3 D H W xi c 1 1 0 * xd
  let c11 := vals3 D H W xi c 0 1 1 * (1 - xd) + vals3 D H W xi c 1 1 1 * xd
  let c0 := c00 * (1 - yd) + c10 * yd
  let c1 := c01 * (1 - yd) + c11 * yd
  c0 * (1 - zd) + c1 * zd

/-- Embedding of `th_bilinear_interp_3d` on one channel. -/
def th_bilinear_interp_3d (D H W : ℕ) (xi : ℕ → ℕ → ℕ → ℚ)
    (coords : List (ℚ × ℚ × ℚ)) : List ℚ :=
  coords.map (th_bilinear_point_3d D H W xi)

/-- Embedding of `th_affine_3d` on a `(C, D, H, W)` tensor with one matrix
per channel.  The result at channel `i`, voxel `(d, h, w)` is entry
`d*(H*W) + h*W + w` of the flat interpolation output; an unrecognized `mode`
leaves the output variable unassigned (`none`). -/
def th_affine_3d (C D H W : ℕ) (x : ℕ → ℕ → ℕ → ℕ → ℚ) (M : ℕ → ℕ → ℕ → ℚ)
    (mode : String) (center : Bool) : Option (ℕ → ℕ → ℕ → ℕ → ℚ) :=
  if mode = "nearest" then
    some (fun i d h w =>
      (th_nearest_interp_3d D H W (x i) (newCoords3 D H W (M i) center)).getD
        (d * (H * W) + h * W + w) 0)
  else if mode = "bilinear" then
    some (fun i d h w =>
      (th_bilinear_interp_3d D H W (x i) (newCoords3 D H W (M i) center)).getD
        (d * (H * W) + h * W + w) 0)
  else none

/-- Output value of `th_affine_3d` at channel `i`, voxel `(d, h, w)`. -/
def affine3dAt (C D H W : ℕ) (x : ℕ → ℕ → ℕ → ℕ → ℚ) (M : ℕ → ℕ → ℕ → ℚ)
    (mode : String) (center : Bool) (i d h w : ℕ) : Option ℚ :=
  (th_affine_3d C D H W x M mode center).map (fun g => g i d h w)

/-- C5: for every `mode` other than `"nearest"` and `"bilinear"`, neither
interpolation branch assigns the result variable, so `th_affine_2d` and
`th_affine_3d` return no tensor at all (the unbound-variable failure at the
`return` statement, embedded as `none`) instead of raising an explicit
unsupported-mode error; conversely, the two supported modes always produce a
tensor. -/
theorem C5_mode_fallthrough (C D H W : ℕ) (x2 : ℕ → ℕ → ℕ → ℚ)
    (x3 : ℕ → ℕ → ℕ → ℕ → ℚ) (M2 M3 : ℕ → ℕ → ℕ → ℚ) (mode : String)
    (center : Bool) :
    (th_affine_2d C H W x2 M2 mode center = none ↔
      (mode ≠ "nearest" ∧ mode ≠ "bilinear")) ∧
    (th_affine_3d C D H W x3 M3 mode center = none ↔
      (mode ≠ "nearest" ∧ mode ≠ "bilinear")) := by
  constructor
  · unfold th_affine_2d
    split_ifs with h1 h2
    · simp [h1]
    · simp [h1, h2]
    · simp [h1, h2]
  · unfold th_affine_3d
    split_ifs with h1 h2
    · simp [h1]
    · simp [h1, h2]
    · simp [h1, h2]

theorem C5_mode_fallthrough_witness :
    th_affine_2d 1 2 2 (fun _ _ _ => 0) (fun _ _ _ => 0) "trilinear" true = none ∧
    th_affine_3d 1 2 2 2 (fun _ _ _ _ => 0) (fun _ _ _ => 0) "trilinear" true = none := by
  have h := C5_mode_fallthrough 1 2 2 2 (fun _ _ _ => 0) (fun _ _ _ _ => 0)
    (fun _ _ _ => 0) (fun _ _ _ => 0) "trilinear" true
  exact ⟨h.1.mpr ⟨by decide, by decide⟩, h.2.mpr ⟨by decide, by decide⟩⟩

/-- C10: `th_affine_2d` reads only the first two rows of each (3×3 or 2×3)
matrix — `A = matrix[:, :2, :2]` and `b = matrix[:, :2, 2]` — so two matrix
stacks that agree on their first two rows produce identical outputs for every
input, mode and centering flag. -/
theorem C10_affine2d_ignores_third_row (C H W : ℕ) (x M M' : ℕ → ℕ → ℕ → ℚ)
    (mode : String) (center : Bool)
    (hM : ∀ i r c, r < 2 → M i r c = M' i r c) :
    th_affine_2d C H W x M mode center = th_affine_2d C H W x M' mode center := by
  have hA : ∀ i, transCoord2 H W (M i) center = transCoord2 H W (M' i) center := by
    intro i
    funext c
    unfold transCoord2 affMap2
    rw [hM i 0 0 (by omega), hM i 0 1 (by omega), hM i 0 2 (by omega),
      hM i 1 0 (by omega), hM i 1 1 (by omega), hM i 1 2 (by omega)]
  have hN : ∀ i, newCoords2 H W (M i) center = newCoords2 H W (M' i) center := by
    intro i
    unfold newCoords2
    rw [hA i]
  unfold th_affine_2d
  split_ifs with h1 h2
  · congr 1
    funext i h w
    rw [hN i]
  · congr 1
    funext i h w
    rw [hN i]
  · rfl

theorem C10_affine2d_ignores_third_row_witness :
    th_affine_2d 1 2 2 (fun _ h w => (h : ℚ) + w)
        (fun _ r c => if r = 0 ∧ c = 0 then 1 else if r = 1 ∧ c = 1 then 1 else 0)
        "bilinear" true
      = th_affine_2d 1 2 2 (fun _ h w => (h : ℚ) + w)
        (fun _ r c => if r = 0 ∧ c = 0 then 1 else if r = 1 ∧ c = 1 then 1
                      else if r = 2 then 7 else 0)
        "bilinear" true := by
  apply C10_affine2d_ignores_third_row
  intro i r c hr
  interval_cases r <;> simp

/-- C7: `th_affine_2d` with a pure-translation matrix (identity linear part,
translation `(t0, t1)`) in nearest mode shifts the sampled content by the
translation: the output pixel `(h, w)` is the input sampled at the shifted
coordinate `(h + t0, w + t1)`, clamped into the image bounds, so coordinates
falling outside the original image replicate the boundary pixel. -/
theorem C7_affine2d_translation (C H W : ℕ) (x : ℕ → ℕ → ℕ → ℚ) (t0 t1 : ℚ)
    (center : Bool) (i h w : ℕ) (hh : h < H) (hw : w < W) :
    affine2dAt C H W x (fun _ => transM2 t0 t1) "nearest" center i h w
      = some (x i (clampRoundIdx ((h : ℚ) + t0) H) (clampRoundIdx ((w : ℚ) + t1) W)) := by
  rw [affine2dAt_nearest C H W x _ center i h w hh hw, transCoord2_translation]
  exact congrArg some
    (nearestSample2_eval H W (x i) ((h : ℚ) + t0) ((w : ℚ) + t1) (by omega) (by omega))

theorem C7_affine2d_translation_witness :
    affine2dAt 1 2 3 (fun _ h w => (10 : ℚ) * h + w) (fun _ => transM2 5 (-1))
        "nearest" true 0 1 1
      = some ((fun (_ h w : ℕ) => (10 : ℚ) * h + w) 0
          (clampRoundIdx ((1 : ℚ) + 5) 2) (clampRoundIdx ((1 : ℚ) + (-1)) 3)) :=
  C7_affine2d_translation 1 2 3 (fun _ h w => (10 : ℚ) * h + w) 5 (-1) true 0 1 1
    (by decide) (by decide)

theorem natCast_le_sub_one (h s : ℕ) (hh : h < s) : ((h : ℚ)) ≤ (s : ℚ) - 1 := by
  have h1 : ((h : ℚ)) + 1 ≤ (s : ℚ) := by exact_mod_cast hh
  linarith

theorem clampQ_natCast_idx (h s : ℕ) (hh : h < s) :
    clampQ ((h : ℚ)) 0 ((s : ℚ) - 1) = (h : ℚ) :=
  clampQ_eq_self _ _ _ (by positivity) (natCast_le_sub_one h s hh)

theorem gatherOne2_natCast (H W : ℕ) (xi : ℕ → ℕ → ℚ) (h w : ℕ)
    (hh : h < H) (hw : w < W) :
    gatherOne [H, W] (flat2 W xi) [(h : ℤ), (w : ℤ)] = xi h w := by
  rw [gatherOne2_eval H W xi (h : ℤ) (w : ℤ) (by positivity) (by omega)
    (by positivity) (by omega)]
  rw [Int.toNat_natCast, Int.toNat_natCast]

theorem vals_lt2_int (H W : ℕ) (xi : ℕ → ℕ → ℚ) (h w : ℕ)
    (hh : h < H) (hw : w < W) :
    vals_lt2 H W xi ((h : ℚ), (w : ℚ)) = xi h w := by
  unfold vals_lt2 c_lt2 clamped2
  dsimp only
  rw [clampQ_natCast_idx h H hh, clampQ_natCast_idx w W hw,
    Int.floor_natCast, Int.floor_natCast]
  exact gatherOne2_natCast H W xi h w hh hw

theorem vals_rb2_int (H W : ℕ) (xi : ℕ → ℕ → ℚ) (h w : ℕ)
    (hh : h < H) (hw : w < W) :
    vals_rb2 H W xi ((h : ℚ), (w : ℚ)) = xi h w := by
  unfold vals_rb2 c_rb2 clamped2
  dsimp only
  rw [clampQ_natCast_idx h H hh, clampQ_natCast_idx w W hw,
    Int.ceil_natCast, Int.ceil_natCast]
  exact gatherOne2_natCast H W xi h w hh hw

theorem vals_lb2_int (H W : ℕ) (xi : ℕ → ℕ → ℚ) (h w : ℕ)
    (hh : h < H) (hw : w < W) :
    vals_lb2 H W xi ((h : ℚ), (w : ℚ)) = xi h w := by
  unfold vals_lb2 c_lb2 clamped2
  dsimp only
  rw [clampQ_natCast_idx h H hh, clampQ_natCast_idx w W hw,
    Int.floor_natCast, Int.ceil_natCast]
  exact gatherOne2_natCast H W xi h w hh hw

theorem vals_rt2_int (H W : ℕ) (xi : ℕ → ℕ → ℚ) (h w : ℕ)
    (hh : h < H) (hw : w < W) :
    vals_rt2 H W xi ((h : ℚ), (w : ℚ)) = xi h w := by
  unfold vals_rt2 c_rt2 clamped2
  dsimp only
  rw [clampQ_natCast_idx h H hh, clampQ_natCast_idx w W hw,
    Int.ceil_natCast, Int.floor_natCast]
  exact gatherOne2_natCast H W xi h w hh hw

theorem bilinear2_point_int (H W : ℕ) (xi : ℕ → ℕ → ℚ) (h w : ℕ)
    (hh : h < H) (hw : w < W) :
    th_bilinear_point_2d H W xi ((h : ℚ), (w : ℚ)) = xi h w := by
  unfold th_bilinear_point_2d
  rw [vals_lt2_int H W xi h w hh hw, vals_rb2_int H W xi h w hh hw,
    vals_lb2_int H W xi h w hh hw, vals_rt2_int H W xi h w hh hw]
  unfold clamped2
  dsimp only
  rw [clampQ_natCast_idx h H hh, clampQ_natCast_idx w W hw,
    Int.floor_natCast, Int.floor_natCast]
  push_cast
  ring

theorem nearest2_point_int (H W : ℕ) (xi : ℕ → ℕ → ℚ) (h w : ℕ)
    (hh : h < H) (hw : w < W) :
    gatherOne [H, W] (flat2 W xi)
        [roundQ (clampQ ((h : ℚ)) 0 ((H : ℚ) - 1)),
         roundQ (clampQ ((w : ℚ)) 0 ((W : ℚ) - 1))] = xi h w := by
  rw [clampQ_natCast_idx h H hh, clampQ_natCast_idx w W hw,
    roundQ_natCast, roundQ_natCast]
  exact gatherOne2_natCast H W xi h w hh hw

theorem prodList3 (D H W : ℕ) : prodList [D, H, W] = D * (H * W) := by
  simp [prodList]

theorem idx3_lt (D H W d h w : ℕ) (hd : d < D) (hh : h < H) (hw : w < W) :
    d * (H * W) + h * W + w < D * (H * W) := by
  have h2 : h * W + w < H * W := idx2_lt H W h w hh hw
  calc d * (H * W) + h * W + w = d * (H * W) + (h * W + w) := by ring
  _ < d * (H * W) + H * W := by omega
  _ = (d + 1) * (H * W) := by ring
  _ ≤ D * (H * W) := Nat.mul_le_mul_right (H * W) hd

theorem gridCoords3_length (D H W : ℕ) :
    (gridCoords3 D H W).length = D * (H * W) := by
  unfold gridCoords3
  rw [List.length_map, th_iterproduct_eq_cartesian, cartesian_length, prodList3]

theorem gridCoords3_getD (D H W d h w : ℕ) (hd : d < D) (hh : h < H) (hw : w < W) :
    (gridCoords3 D H W).getD (d * (H * W) + h * W + w) (0, 0, 0)
      = ((d : ℚ), (h : ℚ), (w : ℚ)) := by
  unfold gridCoords3
  rw [th_iterproduct_eq_cartesian]
  have hlen : d * (H * W) + h * W + w < (cartesian [D, H, W]).length := by
    rw [cartesian_length, prodList3]
    exact idx3_lt D H W d h w hd hh hw
  rw [getD_map_of_lt _ _ _ hlen _ [], cartesian3_getD D H W d h w hd hh hw]
  rfl

theorem newCoords3_length (D H W : ℕ) (M : ℕ → ℕ → ℚ) (center : Bool) :
    (newCoords3 D H W M center).length = D * (H * W) := by
  unfold newCoords3
  rw [List.length_map, gridCoords3_length]

theorem newCoords3_getD (D H W d h w : ℕ) (M : ℕ → ℕ → ℚ) (center : Bool)
    (hd : d < D) (hh : h < H) (hw : w < W) :
    (newCoords3 D H W M center).getD (d * (H * W) + h * W + w) (0, 0, 0)
      = transCoord3 D H W M center ((d : ℚ), (h : ℚ), (w : ℚ)) := by
  unfold newCoords3
  have hlen : d * (H * W) + h * W + w < (gridCoords3 D H W).length := by
    rw [gridCoords3_length]
    exact idx3_lt D H W d h w hd hh hw
  rw [getD_map_of_lt _ _ _ hlen _ (0, 0, 0), gridCoords3_getD D H W d h w hd hh hw]

theorem gatherOne3_eval (D H W : ℕ) (xi : ℕ → ℕ → ℕ → ℚ) (a b c : ℤ)
    (ha0 : 0 ≤ a) (ha1 : a ≤ (D : ℤ) - 1) (hb0 : 0 ≤ b) (hb1 : b ≤ (H : ℤ) - 1)
    (hc0 : 0 ≤ c) (hc1 : c ≤ (W : ℤ) - 1) :
    gatherOne [D, H, W] (flat3 H W xi) [a, b, c] = xi a.toNat b.toNat c.toNat := by
  have hW : 0 < W := by omega
  have hH : 0 < H := by omega
  have hHW : 0 < H * W := Nat.mul_pos hH hW
  have hdot : dotZ [a, b, c] ((strides [D, H, W]).map Int.ofNat)
      = a * (H * W) + b * W + c := by
    have hs : strides [D, H, W] = [H * (W * 1), W * 1, 1] := by
      simp [strides, prodList]
    rw [hs]
    simp [dotZ]
    push_cast
    ring
  have hAD : a.toNat < D := by omega
  have hBH : b.toNat < H := by omega
  have hCW : c.toNat < W := by omega
  have hidx : a.toNat * (H * W) + b.toNat * W + c.toNat < D * (H * W) :=
    idx3_lt D H W a.toNat b.toNat c.toNat hAD hBH hCW
  show (if 0 ≤ dotZ [a, b, c] ((strides [D, H, W]).map Int.ofNat) ∧
          dotZ [a, b, c] ((strides [D, H, W]).map Int.ofNat) < (prodList [D, H, W] : ℤ)
        then flat3 H W xi (dotZ [a, b, c] ((strides [D, H, W]).map Int.ofNat)).toNat
        else 0)
      = xi a.toNat b.toNat c.toNat
  rw [hdot, prodList3]
  have hf : a * (H * W) + b * W + c
      = ((a.toNat * (H * W) + b.toNat * W + c.toNat : ℕ) : ℤ) := by
    push_cast
    rw [Int.toNat_of_nonneg ha0, Int.toNat_of_nonneg hb0, Int.toNat_of_nonneg hc0]
  rw [if_pos ⟨by rw [hf]; positivity, by rw [hf]; exact_mod_cast hidx⟩]
  rw [hf, Int.toNat_natCast]
  unfold flat3
  have hsub : b.toNat * W + c.toNat < H * W := idx2_lt H W b.toNat c.toNat hBH hCW
  have e1 : a.toNat * (H * W) + b.toNat * W + c.toNat
      = (H * W) * a.toNat + (b.toNat * W + c.toNat) := by ring
  have hdiv : (a.toNat * (H * W) + b.toNat * W + c.toNat) / (H * W) = a.toNat := by
    rw [e1, Nat.mul_add_div hHW, Nat.div_eq_of_lt hsub, Nat.add_zero]
  have hmod : (a.toNat * (H * W) + b.toNat * W + c.toNat) % (H * W)
      = b.toNat * W + c.toNat := by
    rw [e1, Nat.mul_add_mod, Nat.mod_eq_of_lt hsub]
  have hdiv2 : (b.toNat * W + c.toNat) / W = b.toNat := by
    rw [show b.toNat * W + c.toNat = W * b.toNat + c.toNat by ring,
      Nat.mul_add_div hW, Nat.div_eq_of_lt hCW, Nat.add_zero]
  have hmodW : (a.toNat * (H * W) + b.toNat * W + c.toNat) % W = c.toNat := by
    rw [show a.toNat * (H * W) + b.toNat * W + c.toNat
          = W * (a.toNat * H + b.toNat) + c.toNat by ring,
      Nat.mul_add_mod, Nat.mod_eq_of_lt hCW]
  rw [hdiv, hmod, hdiv2, hmodW]

theorem gatherOne3_natCast (D H W : ℕ) (xi : ℕ → ℕ → ℕ → ℚ) (d h w : ℕ)
    (hd : d < D) (hh : h < H) (hw : w < W) :
    gatherOne [D, H, W] (flat3 H W xi) [(d : ℤ), (h : ℤ), (w : ℤ)] = xi d h w := by
  rw [gatherOne3_eval D H W xi (d : ℤ) (h : ℤ) (w : ℤ) (by positivity) (by omega)
    (by positivity) (by omega) (by positivity) (by omega)]
  rw [Int.toNat_natCast, Int.toNat_natCast, Int.toNat_natCast]

theorem transCoord3_id (D H W : ℕ) (M : ℕ → ℕ → ℚ) (center : Bool)
    (h00 : M 0 0 = 1) (h01 : M 0 1 = 0) (h02 : M 0 2 = 0) (h03 : M 0 3 = 0)
    (h10 : M 1 0 = 0) (h11 : M 1 1 = 1) (h12 : M 1 2 = 0) (h13 : M 1 3 = 0)
    (h20 : M 2 0 = 0) (h21 : M 2 1 = 0) (h22 : M 2 2 = 1) (h23 : M 2 3 = 0)
    (c : ℚ × ℚ × ℚ) :
    transCoord3 D H W M center c = c := by
  obtain ⟨c1, c2, c3⟩ := c
  cases center <;>
    simp only [transCoord3, affMap3, h00, h01, h02, h03, h10, h11, h12, h13,
      h20, h21, h22, h23, Prod.mk.injEq] <;>
    norm_num

theorem affine3dAt_nearest (C D H W : ℕ) (x : ℕ → ℕ → ℕ → ℕ → ℚ)
    (M : ℕ → ℕ → ℕ → ℚ) (center : Bool) (i d h w : ℕ)
    (hd : d < D) (hh : h < H) (hw : w < W) :
    affine3dAt C D H W x M "nearest" center i d h w
      = some (gatherOne [D, H, W] (flat3 H W (x i))
          [roundQ (clampQ (transCoord3 D H W (M i) center ((d : ℚ), (h : ℚ), (w : ℚ))).1
              0 ((D : ℚ) - 1)),
           roundQ (clampQ (transCoord3 D H W (M i) center ((d : ℚ), (h : ℚ), (w : ℚ))).2.1
              0 ((H : ℚ) - 1)),
           roundQ (clampQ (transCoord3 D H W (M i) center ((d : ℚ), (h : ℚ), (w : ℚ))).2.2
              0 ((W : ℚ) - 1))]) := by
  unfold affine3dAt th_affine_3d
  rw [if_pos rfl]
  rw [Option.map_some']
  congr 1
  dsimp only
  unfold th_nearest_interp_3d th_gather_nd
  rw [List.map_map]
  have hlen : d * (H * W) + h * W + w < (newCoords3 D H W (M i) center).length := by
    rw [newCoords3_length]
    exact idx3_lt D H W d h w hd hh hw
  rw [getD_map_of_lt _ _ _ hlen _ (0, 0, 0),
    newCoords3_getD D H W d h w (M i) center hd hh hw]
  rfl

theorem affine3dAt_bilinear (C D H W : ℕ) (x : ℕ → ℕ → ℕ → ℕ → ℚ)
    (M : ℕ → ℕ → ℕ → ℚ) (center : Bool) (i d h w : ℕ)
    (hd : d < D) (hh : h < H) (hw : w < W) :
    affine3dAt C D H W x M "bilinear" center i d h w
      = some (th_bilinear_point_3d D H W (x i)
          (transCoord3 D H W (M i) center ((d : ℚ), (h : ℚ), (w : ℚ)))) := by
  unfold affine3dAt th_affine_3d
  rw [if_neg (by decide), if_pos rfl]
  rw [Option.map_some']
  congr 1
  dsimp only
  unfold th_bilinear_interp_3d
  have hlen : d * (H * W) + h * W + w < (newCoords3 D H W (M i) center).length := by
    rw [newCoords3_length]
    exact idx3_lt D H W d h w hd hh hw
  rw [getD_map_of_lt _ _ _ hlen _ (0, 0, 0),
    newCoords3_getD D H W d h w (M i) center hd hh hw]

theorem nearest3_point_int (D H W : ℕ) (xi : ℕ → ℕ → ℕ → ℚ) (d h w : ℕ)
    (hd : d < D) (hh : h < H) (hw : w < W) :
    gatherOne [D, H, W] (flat3 H W xi)
        [roundQ (clampQ ((d : ℚ)) 0 ((D : ℚ) - 1)),
         roundQ (clampQ ((h : ℚ)) 0 ((H : ℚ) - 1)),
         roundQ (clampQ ((w : ℚ)) 0 ((W : ℚ) - 1))] = xi d h w := by
  rw [clampQ_natCast_idx d D hd, clampQ_natCast_idx h H hh, clampQ_natCast_idx w W hw,
    roundQ_natCast, roundQ_natCast, roundQ_natCast]
  exact gatherOne3_natCast D H W xi d h w hd hh hw

theorem clampQ_natCast_eps (v s : ℕ) (hv : v + 2 ≤ s) :
    clampQ ((v : ℚ)) 0 ((s : ℚ) - 100001 / 100000) = (v : ℚ) := by
  apply clampQ_eq_self _ _ _ (by positivity)
  have h1 : ((v : ℚ)) + 2 ≤ (s : ℚ) := by exact_mod_cast hv
  have h2 : (100001 : ℚ) / 100000 ≤ 2 := by norm_num
  linarith

theorem vals3_000_int (D H W : ℕ) (xi : ℕ → ℕ → ℕ → ℚ) (d h w : ℕ)
    (hd : d + 2 ≤ D) (hh : h + 2 ≤ H) (hw : w + 2 ≤ W) :
    vals3 D H W xi ((d : ℚ), (h : ℚ), (w : ℚ)) 0 0 0 = xi d h w := by
  unfold vals3 cornerIdx3 clamped3
  dsimp only
  rw [clampQ_natCast_eps d D hd, clampQ_natCast_eps h H hh, clampQ_natCast_eps w W hw,
    Int.floor_natCast, Int.floor_natCast, Int.floor_natCast,
    add_zero, add_zero, add_zero]
  exact gatherOne3_natCast D H W xi d h w (by omega) (by omega) (by omega)

theorem bilinear3_point_int (D H W : ℕ) (xi : ℕ → ℕ → ℕ → ℚ) (d h w : ℕ)
    (hd : d + 2 ≤ D) (hh : h + 2 ≤ H) (hw : w + 2 ≤ W) :
    th_bilinear_point_3d D H W xi ((d : ℚ), (h : ℚ), (w : ℚ)) = xi d h w := by
  unfold th_bilinear_point_3d
  rw [vals3_000_int D H W xi d h w hd hh hw]
  unfold clamped3
  dsimp only
  rw [clampQ_natCast_eps d D hd, clampQ_natCast_eps h H hh, clampQ_natCast_eps w W hw,
    Int.floor_natCast, Int.floor_natCast, Int.floor_natCast]
  have hz : ∀ v : ℚ, (v - v) / (v + 1 - v) = 0 := by
    intro v
    rw [sub_self, zero_div]
  push_cast
  rw [hz, hz, hz]
  ring

/-- Concrete identity matrix stack (every channel gets the identity slice). -/
def idMat : ℕ → ℕ → ℕ → ℚ := fun _ r c => if r = c then 1 else 0

/-- Concrete `(1, 2, 2, 2)` test volume: zero everywhere except value
`1000000` at voxel `(1, 1, 1)`. -/
def xEx3 : ℕ → ℕ → ℕ → ℕ → ℚ :=
  fun _ d h w => if d = 1 ∧ h = 1 ∧ w = 1 then 1000000 else 0

/-- Concrete `(1, 2, 2)` test image. -/
def xEx2 : ℕ → ℕ → ℕ → ℚ := fun _ h w => (10 : ℚ) * h + w

theorem clampQ_one_eps : clampQ 1 0 ((99999 : ℚ) / 100000) = 99999 / 100000 := by
  unfold clampQ
  rw [max_eq_left (by norm_num), min_eq_right (by norm_num)]

theorem floor_eps : ⌊(99999 / 100000 : ℚ)⌋ = 0 := by
  rw [Int.floor_eq_zero_iff, Set.mem_Ico]
  constructor <;> norm_num

theorem bilinear3_point_border :
    th_bilinear_point_3d 2 2 2 (xEx3 0) ((1 : ℚ), 1, 1)
      = 999970000299999 / 1000000000 := by
  unfold th_bilinear_point_3d vals3 cornerIdx3 clamped3
  dsimp only
  norm_num [clampQ_one_eps, floor_eps, gatherOne, dotZ, strides, prodList,
    flat3, xEx3]
  rw [show Int.toNat 2 = 2 from rfl, show Int.toNat 3 = 3 from rfl,
    show Int.toNat 4 = 4 from rfl, show Int.toNat 5 = 5 from rfl,
    show Int.toNat 6 = 6 from rfl, show Int.toNat 7 = 7 from rfl]
  norm_num

/-- C1 (amended): with the identity affine matrix and `center=True`,
`th_affine_2d` reproduces the input exactly (in exact arithmetic) under both
nearest and bilinear modes, and `th_affine_3d` reproduces it exactly under
nearest mode; under 3D bilinear mode the input is reproduced exactly at every
voxel whose coordinates all lie at least `2` below the corresponding spatial
size, while far-border voxels are blended with weight `1e-5` toward their
neighbour by the `size - 1.00001` clamp and therefore need not equal the
input (see the counterexample). -/
theorem C1_affine_identity_amended :
    (∀ C H W : ℕ, ∀ x M2 : ℕ → ℕ → ℕ → ℚ, ∀ i h w : ℕ,
      (∀ j, M2 j 0 0 = 1 ∧ M2 j 0 1 = 0 ∧ M2 j 0 2 = 0 ∧
            M2 j 1 0 = 0 ∧ M2 j 1 1 = 1 ∧ M2 j 1 2 = 0) →
      h < H → w < W →
      affine2dAt C H W x M2 "nearest" true i h w = some (x i h w) ∧
      affine2dAt C H W x M2 "bilinear" true i h w = some (x i h w)) ∧
    (∀ C D H W : ℕ, ∀ x : ℕ → ℕ → ℕ → ℕ → ℚ, ∀ M3 : ℕ → ℕ → ℕ → ℚ, ∀ i d h w : ℕ,
      (∀ j, M3 j 0 0 = 1 ∧ M3 j 0 1 = 0 ∧ M3 j 0 2 = 0 ∧ M3 j 0 3 = 0 ∧
            M3 j 1 0 = 0 ∧ M3 j 1 1 = 1 ∧ M3 j 1 2 = 0 ∧ M3 j 1 3 = 0 ∧
            M3 j 2 0 = 0 ∧ M3 j 2 1 = 0 ∧ M3 j 2 2 = 1 ∧ M3 j 2 3 = 0) →
      d < D → h < H → w < W →
      affine3dAt C D H W x M3 "nearest" true i d h w = some (x i d h w) ∧
      (d + 2 ≤ D → h + 2 ≤ H → w + 2 ≤ W →
        affine3dAt C D H W x M3 "bilinear" true i d h w = some (x i d h w))) := by
  constructor
  · intro C H W x M2 i h w hM hh hw
    obtain ⟨m00, m01, m02, m10, m11, m12⟩ := hM i
    constructor
    · rw [affine2dAt_nearest C H W x M2 true i h w hh hw,
        transCoord2_id H W (M2 i) true m00 m01 m02 m10 m11 m12]
      exact congrArg some (nearest2_point_int H W (x i) h w hh hw)
    · rw [affine2dAt_bilinear C H W x M2 true i h w hh hw,
        transCoord2_id H W (M2 i) true m00 m01 m02 m10 m11 m12]
      exact congrArg some (bilinear2_point_int H W (x i) h w hh hw)
  · intro C D H W x M3 i d h w hM hd hh hw
    obtain ⟨m00, m01, m02, m03, m10, m11, m12, m13, m20, m21, m22, m23⟩ := hM i
    constructor
    · rw [affine3dAt_nearest C D H W x M3 true i d h w hd hh hw,
        transCoord3_id D H W (M3 i) true m00 m01 m02 m03 m10 m11 m12 m13
          m20 m21 m22 m23]
      exact congrArg some (nearest3_point_int D H W (x i) d h w hd hh hw)
    · intro hd2 hh2 hw2
      rw [affine3dAt_bilinear C D H W x M3 true i d h w hd hh hw,
        transCoord3_id D H W (M3 i) true m00 m01 m02 m03 m10 m11 m12 m13
          m20 m21 m22 m23]
      exact congrArg some (bilinear3_point_int D H W (x i) d h w hd2 hh2 hw2)

theorem C1_affine_identity_witness :
    (affine2dAt 1 2 2 xEx2 idMat "nearest" true 0 1 1 = some (xEx2 0 1 1) ∧
     affine2dAt 1 2 2 xEx2 idMat "bilinear" true 0 1 1 = some (xEx2 0 1 1)) ∧
    (affine3dAt 1 3 3 3 xEx3 idMat "nearest" true 0 1 1 1 = some (xEx3 0 1 1 1) ∧
     affine3dAt 1 3 3 3 xEx3 idMat "bilinear" true 0 1 1 1 = some (xEx3 0 1 1 1)) := by
  have h1 := C1_affine_identity_amended.1 1 2 2 xEx2 idMat 0 1 1
    (fun j => ⟨rfl, rfl, rfl, rfl, rfl, rfl⟩) (by norm_num) (by norm_num)
  have h2 := C1_affine_identity_amended.2 1 3 3 3 xEx3 idMat 0 1 1 1
    (fun j => ⟨rfl, rfl, rfl, rfl, rfl, rfl, rfl, rfl, rfl, rfl, rfl, rfl⟩)
    (by norm_num) (by norm_num) (by norm_num)
  exact ⟨h1, ⟨h2.1, h2.2 (by norm_num) (by norm_num) (by norm_num)⟩⟩

/-- C1 (counterexample): on the `(1, 2, 2, 2)` volume `xEx3` (zero except
value `1000000` at voxel `(1, 1, 1)`), `th_affine_3d` with the identity
matrix, `center=True` and `mode='bilinear'` returns `999970000299999 / 10⁹ ≈
999970.0003` at voxel `(1, 1, 1)` instead of `1000000`: the `size - 1.00001`
clamp blends every far-border voxel with its neighbour, so the identity
transform does not reproduce the input (the deviation here is ≈ 30, far
beyond floating-point tolerance). -/
theorem C1_affine_identity_counterexample :
    affine3dAt 1 2 2 2 xEx3 idMat "bilinear" true 0 1 1 1
        = some (999970000299999 / 1000000000) ∧
    xEx3 0 1 1 1 = 1000000 ∧
    (999970000299999 / 1000000000 : ℚ) ≠ 1000000 := by
  refine ⟨?_, rfl, by norm_num⟩
  rw [affine3dAt_bilinear 1 2 2 2 xEx3 idMat true 0 1 1 1 (by norm_num)
      (by norm_num) (by norm_num),
    transCoord3_id 2 2 2 (idMat 0) true rfl rfl rfl rfl rfl rfl rfl rfl rfl
      rfl rfl rfl]
  simp only [Nat.cast_one]
  exact congrArg some bilinear3_point_border

theorem dotZ2 (H W : ℕ) (a b : ℤ) :
    dotZ [a, b] ((strides [H, W]).map Int.ofNat) = a * W + b := by
  have hs : strides [H, W] = [W * 1, 1] := by simp [strides, prodList]
  rw [hs]
  simp [dotZ]

theorem offset2_bounds (H W : ℕ) (a b : ℤ) (ha0 : 0 ≤ a) (ha1 : a ≤ (H : ℤ) - 1)
    (hb0 : 0 ≤ b) (hb1 : b ≤ (W : ℤ) - 1) :
    0 ≤ a * W + b ∧ a * W + b < (H : ℤ) * W := by
  constructor
  · exact add_nonneg (mul_nonneg ha0 (by positivity)) hb0
  · nlinarith [mul_le_mul_of_nonneg_right ha1 (show (0 : ℤ) ≤ (W : ℤ) by positivity)]

theorem floor_clamp_bounds (v : ℚ) (s : ℕ) (hs : 1 ≤ s) :
    0 ≤ ⌊clampQ v 0 ((s : ℚ) - 1)⌋ ∧ ⌊clampQ v 0 ((s : ℚ) - 1)⌋ ≤ (s : ℤ) - 1 := by
  have hs' : (0 : ℚ) ≤ (s : ℚ) - 1 := by
    have h1 : (1 : ℚ) ≤ (s : ℚ) := by exact_mod_cast hs
    linarith
  have hm := clampQ_mem v 0 ((s : ℚ) - 1) hs'
  constructor
  · exact Int.le_floor.mpr (by exact_mod_cast hm.1)
  · have h2 : ((s : ℚ) - 1) = (((s : ℤ) - 1 : ℤ) : ℚ) := by push_cast; ring
    calc ⌊clampQ v 0 ((s : ℚ) - 1)⌋ ≤ ⌊(((s : ℤ) - 1 : ℤ) : ℚ)⌋ :=
          Int.floor_le_floor (by rw [← h2]; exact hm.2)
    _ = (s : ℤ) - 1 := Int.floor_intCast _

theorem ceil_clamp_bounds (v : ℚ) (s : ℕ) (hs : 1 ≤ s) :
    0 ≤ ⌈clampQ v 0 ((s : ℚ) - 1)⌉ ∧ ⌈clampQ v 0 ((s : ℚ) - 1)⌉ ≤ (s : ℤ) - 1 := by
  have hs' : (0 : ℚ) ≤ (s : ℚ) - 1 := by
    have h1 : (1 : ℚ) ≤ (s : ℚ) := by exact_mod_cast hs
    linarith
  have hm := clampQ_mem v 0 ((s : ℚ) - 1) hs'
  constructor
  · exact le_trans (floor_clamp_bounds v s hs).1 (Int.floor_le_ceil _)
  · exact Int.ceil_le.mpr (by push_cast; linarith [hm.2])

/-- C9: for an input of spatial size `(H, W)` with `H, W ≥ 1` and any real
coordinate pair, all four corner coordinate pairs computed by
`th_bilinear_interp_2d` (floors and ceilings of the clamped coordinates) lie
in `[0, H-1] × [0, W-1]`, and each corresponding flat gather offset
`a·W + b` lies inside `[0, numel)`, so no gather reads out of bounds. -/
theorem C9_bilinear2_corners_inbounds (H W : ℕ) (hH : 1 ≤ H) (hW : 1 ≤ W)
    (c : ℚ × ℚ) :
    ∀ r ∈ [c_lt2 H W c, c_rb2 H W c, c_lb2 H W c, c_rt2 H W c],
      ∃ a b : ℤ, r = [a, b] ∧
        0 ≤ a ∧ a ≤ (H : ℤ) - 1 ∧ 0 ≤ b ∧ b ≤ (W : ℤ) - 1 ∧
        0 ≤ dotZ r ((strides [H, W]).map Int.ofNat) ∧
        dotZ r ((strides [H, W]).map Int.ofNat) < (prodList [H, W] : ℤ) := by
  have hx := floor_clamp_bounds c.1 H hH
  have hy := floor_clamp_bounds c.2 W hW
  have hx' := ceil_clamp_bounds c.1 H hH
  have hy' := ceil_clamp_bounds c.2 W hW
  have hprod : (prodList [H, W] : ℤ) = (H : ℤ) * W := by
    rw [prodList2]; push_cast; ring
  intro r hr
  simp only [List.mem_cons, List.mem_singleton, List.not_mem_nil, or_false] at hr
  rcases hr with rfl | rfl | rfl | rfl
  · refine ⟨_, _, rfl, hx.1, hx.2, hy.1, hy.2, ?_, ?_⟩ <;>
      rw [show c_lt2 H W c
            = [⌊clampQ c.1 0 ((H : ℚ) - 1)⌋, ⌊clampQ c.2 0 ((W : ℚ) - 1)⌋] from rfl,
        dotZ2]
    · exact (offset2_bounds H W _ _ hx.1 hx.2 hy.1 hy.2).1
    · rw [hprod]
      exact (offset2_bounds H W _ _ hx.1 hx.2 hy.1 hy.2).2
  · refine ⟨_, _, rfl, hx'.1, hx'.2, hy'.1, hy'.2, ?_, ?_⟩ <;>
      rw [show c_rb2 H W c
            = [⌈clampQ c.1 0 ((H : ℚ) - 1)⌉, ⌈clampQ c.2 0 ((W : ℚ) - 1)⌉] from rfl,
        dotZ2]
    · exact (offset2_bounds H W _ _ hx'.1 hx'.2 hy'.1 hy'.2).1
    · rw [hprod]
      exact (offset2_bounds H W _ _ hx'.1 hx'.2 hy'.1 hy'.2).2
  · refine ⟨_, _, rfl, hx.1, hx.2, hy'.1, hy'.2, ?_, ?_⟩ <;>
      rw [show c_lb2 H W c
            = [⌊clampQ c.1 0 ((H : ℚ) - 1)⌋, ⌈clampQ c.2 0 ((W : ℚ) - 1)⌉] from rfl,
        dotZ2]
    · exact (offset2_bounds H W _ _ hx.1 hx.2 hy'.1 hy'.2).1
    · rw [hprod]
      exact (offset2_bounds H W _ _ hx.1 hx.2 hy'.1 hy'.2).2
  · refine ⟨_, _, rfl, hx'.1, hx'.2, hy.1, hy.2, ?_, ?_⟩ <;>
      rw [show c_rt2 H W c
            = [⌈clampQ c.1 0 ((H : ℚ) - 1)⌉, ⌊clampQ c.2 0 ((W : ℚ) - 1)⌋] from rfl,
        dotZ2]
    · exact (offset2_bounds H W _ _ hx'.1 hx'.2 hy.1 hy.2).1
    · rw [hprod]
      exact (offset2_bounds H W _ _ hx'.1 hx'.2 hy.1 hy.2).2

theorem C9_bilinear2_corners_inbounds_witness :
    0 ≤ dotZ (c_lt2 2 3 (5, -7)) ((strides [2, 3]).map Int.ofNat) ∧
    dotZ (c_lt2 2 3 (5, -7)) ((strides [2, 3]).map Int.ofNat)
      < (prodList [2, 3] : ℤ) := by
  obtain ⟨a, b, hab, h1, h2, h3, h4, h5, h6⟩ :=
    C9_bilinear2_corners_inbounds 2 3 (by norm_num) (by norm_num) (5, -7)
      (c_lt2 2 3 (5, -7)) (by simp)
  exact ⟨h5, h6⟩

theorem lerp_bounds (a b t : ℚ) (h0 : 0 ≤ t) (h1 : t ≤ 1) :
    min a b ≤ a + (b - a) * t ∧ a + (b - a) * t ≤ max a b := by
  rcases le_total a b with h | h
  · constructor
    · calc min a b ≤ a := min_le_left a b
      _ ≤ a + (b - a) * t := by nlinarith
    · calc a + (b - a) * t ≤ b := by nlinarith
      _ ≤ max a b := le_max_right a b
  · constructor
    · calc min a b ≤ b := min_le_right a b
      _ ≤ a + (b - a) * t := by nlinarith
    · calc a + (b - a) * t ≤ a := by nlinarith
      _ ≤ max a b := le_max_left a b

theorem lerp_bounds_mul (a b t : ℚ) (h0 : 0 ≤ t) (h1 : t ≤ 1) :
    min a b ≤ a * (1 - t) + b * t ∧ a * (1 - t) + b * t ≤ max a b := by
  have h := lerp_bounds a b t h0 h1
  have e : a * (1 - t) + b * t = a + (b - a) * t := by ring
  rw [e]
  exact h

theorem fract_bounds (q : ℚ) : 0 ≤ q - ((⌊q⌋ : ℤ) : ℚ) ∧ q - ((⌊q⌋ : ℤ) : ℚ) ≤ 1 := by
  have h1 := Int.floor_le q
  have h2 := Int.lt_floor_add_one q
  constructor <;> [linarith; linarith]

theorem bilinear2_point_bounds (H W : ℕ) (xi : ℕ → ℕ → ℚ) (c : ℚ × ℚ) :
    min (min (min (vals_lt2 H W xi c) (vals_rb2 H W xi c)) (vals_lb2 H W xi c))
        (vals_rt2 H W xi c)
      ≤ th_bilinear_point_2d H W xi c ∧
    th_bilinear_point_2d H W xi c
      ≤ max (max (max (vals_lt2 H W xi c) (vals_rb2 H W xi c)) (vals_lb2 H W xi c))
          (vals_rt2 H W xi c) := by
  have hdx := fract_bounds (clamped2 H W c).1
  have hdy := fract_bounds (clamped2 H W c).2
  unfold th_bilinear_point_2d
  dsimp only
  set vlt := vals_lt2 H W xi c with hvlt
  set vrb := vals_rb2 H W xi c with hvrb
  set vlb := vals_lb2 H W xi c with hvlb
  set vrt := vals_rt2 H W xi c with hvrt
  set dx := (clamped2 H W c).1 - ((⌊(clamped2 H W c).1⌋ : ℤ) : ℚ) with hdxe
  set dy := (clamped2 H W c).2 - ((⌊(clamped2 H W c).2⌋ : ℤ) : ℚ) with hdye
  set m4 := min (min (min vlt vrb) vlb) vrt with hm4
  set M4 := max (max (max vlt vrb) vlb) vrt with hM4
  have ht := lerp_bounds vlt vrt dx hdx.1 hdx.2
  have hb := lerp_bounds vlb vrb dx hdx.1 hdx.2
  have hv := lerp_bounds (vlt + (vrt - vlt) * dx) (vlb + (vrb - vlb) * dx) dy
    hdy.1 hdy.2
  have hmlt : m4 ≤ vlt := by rw [hm4]; simp [min_le_iff]
  have hmrb : m4 ≤ vrb := by rw [hm4]; simp [min_le_iff]
  have hmlb : m4 ≤ vlb := by rw [hm4]; simp [min_le_iff]
  have hmrt : m4 ≤ vrt := by rw [hm4]; simp [min_le_iff]
  have hMlt : vlt ≤ M4 := by rw [hM4]; simp [le_max_iff]
  have hMrb : vrb ≤ M4 := by rw [hM4]; simp [le_max_iff]
  have hMlb : vlb ≤ M4 := by rw [hM4]; simp [le_max_iff]
  have hMrt : vrt ≤ M4 := by rw [hM4]; simp [le_max_iff]
  constructor
  · exact le_trans (le_min (le_trans (le_min hmlt hmrt) ht.1)
      (le_trans (le_min hmlb hmrb) hb.1)) hv.1
  · exact le_trans hv.2 (max_le (le_trans ht.2 (max_le hMlt hMrt))
      (le_trans hb.2 (max_le hMlb hMrb)))

theorem bilinear3_point_bounds (D H W : ℕ) (xi : ℕ → ℕ → ℕ → ℚ) (c : ℚ × ℚ × ℚ) :
    min (min (min (min (min (min (min (vals3 D H W xi c 0 0 0) (vals3 D H W xi c 1 1 1))
        (vals3 D H W xi c 0 0 1)) (vals3 D H W xi c 0 1 0)) (vals3 D H W xi c 0 1 1))
        (vals3 D H W xi c 1 0 0)) (vals3 D H W xi c 1 1 0)) (vals3 D H W xi c 1 0 1)
      ≤ th_bilinear_point_3d D H W xi c ∧
    th_bilinear_point_3d D H W xi c
      ≤ max (max (max (max (max (max (max (vals3 D H W xi c 0 0 0) (vals3 D H W xi c 1 1 1))
          (vals3 D H W xi c 0 0 1)) (vals3 D H W xi c 0 1 0)) (vals3 D H W xi c 0 1 1))
          (vals3 D H W xi c 1 0 0)) (vals3 D H W xi c 1 1 0)) (vals3 D H W xi c 1 0 1) := by
  have hx := fract_bounds (clamped3 D H W c).1
  have hy := fract_bounds (clamped3 D H W c).2.1
  have hz := fract_bounds (clamped3 D H W c).2.2
  unfold th_bilinear_point_3d
  dsimp only
  rw [show ((⌊(clamped3 D H W c).1⌋ : ℤ) : ℚ) + 1 - ((⌊(clamped3 D H W c).1⌋ : ℤ) : ℚ)
        = 1 from by ring,
    show ((⌊(clamped3 D H W c).2.1⌋ : ℤ) : ℚ) + 1 - ((⌊(clamped3 D H W c).2.1⌋ : ℤ) : ℚ)
        = 1 from by ring,
    show ((⌊(clamped3 D H W c).2.2⌋ : ℤ) : ℚ) + 1 - ((⌊(clamped3 D H W c).2.2⌋ : ℤ) : ℚ)
        = 1 from by ring,
    div_one, div_one, div_one]
  set v000 := vals3 D H W xi c 0 0 0
  set v111 := vals3 D H W xi c 1 1 1
  set v001 := vals3 D H W xi c 0 0 1
  set v010 := vals3 D H W xi c 0 1 0
  set v011 := vals3 D H W xi c 0 1 1
  set v100 := vals3 D H W xi c 1 0 0
  set v110 := vals3 D H W xi c 1 1 0
  set v101 := vals3 D H W xi c 1 0 1
  set xd := (clamped3 D H W c).1 - ((⌊(clamped3 D H W c).1⌋ : ℤ) : ℚ)
  set yd := (clamped3 D H W c).2.1 - ((⌊(clamped3 D H W c).2.1⌋ : ℤ) : ℚ)
  set zd := (clamped3 D H W c).2.2 - ((⌊(clamped3 D H W c).2.2⌋ : ℤ) : ℚ)
  set m8 := min (min (min (min (min (min (min v000 v111) v001) v010) v011) v100) v110) v101
    with hm8
  set M8 := max (max (max (max (max (max (max v000 v111) v001) v010) v011) v100) v110) v101
    with hM8
  have h000 : m8 ≤ v000 := by rw [hm8]; simp [min_le_iff]
  have h111 : m8 ≤ v111 := by rw [hm8]; simp [min_le_iff]
  have h001 : m8 ≤ v001 := by rw [hm8]; simp [min_le_iff]
  have h010 : m8 ≤ v010 := by rw [hm8]; simp [min_le_iff]
  have h011 : m8 ≤ v011 := by rw [hm8]; simp [min_le_iff]
  have h100 : m8 ≤ v100 := by rw [hm8]; simp [min_le_iff]
  have h110 : m8 ≤ v110 := by rw [hm8]; simp [min_le_iff]
  have h101 : m8 ≤ v101 := by rw [hm8]; simp [min_le_iff]
  have g000 : v000 ≤ M8 := by rw [hM8]; simp [le_max_iff]
  have g111 : v111 ≤ M8 := by rw [hM8]; simp [le_max_iff]
  have g001 : v001 ≤ M8 := by rw [hM8]; simp [le_max_iff]
  have g010 : v010 ≤ M8 := by rw [hM8]; simp [le_max_iff]
  have g011 : v011 ≤ M8 := by rw [hM8]; simp [le_max_iff]
  have g100 : v100 ≤ M8 := by rw [hM8]; simp [le_max_iff]
  have g110 : v110 ≤ M8 := by rw [hM8]; simp [le_max_iff]
  have g101 : v101 ≤ M8 := by rw [hM8]; simp [le_max_iff]
  have hc00 := lerp_bounds_mul v000 v100 xd hx.1 hx.2
  have hc01 := lerp_bounds_mul v001 v101 xd hx.1 hx.2
  have hc10 := lerp_bounds_mul v010 v110 xd hx.1 hx.2
  have hc11 := lerp_bounds_mul v011 v111 xd hx.1 hx.2
  have hc0 := lerp_bounds_mul (v000 * (1 - xd) + v100 * xd)
    (v010 * (1 - xd) + v110 * xd) yd hy.1 hy.2
  have hc1 := lerp_bounds_mul (v001 * (1 - xd) + v101 * xd)
    (v011 * (1 - xd) + v111 * xd) yd hy.1 hy.2
  have hfin := lerp_bounds_mul
    ((v000 * (1 - xd) + v100 * xd) * (1 - yd) + (v010 * (1 - xd) + v110 * xd) * yd)
    ((v001 * (1 - xd) + v101 * xd) * (1 - yd) + (v011 * (1 - xd) + v111 * xd) * yd)
    zd hz.1 hz.2
  constructor
  · refine le_trans (le_min ?_ ?_) hfin.1
    · exact le_trans (le_min (le_trans (le_min h000 h100) hc00.1)
        (le_trans (le_min h010 h110) hc10.1)) hc0.1
    · exact le_trans (le_min (le_trans (le_min h001 h101) hc01.1)
        (le_trans (le_min h011 h111) hc11.1)) hc1.1
  · refine le_trans hfin.2 (max_le ?_ ?_)
    · exact le_trans hc0.2 (max_le (le_trans hc00.2 (max_le g000 g100))
        (le_trans hc10.2 (max_le g010 g110)))
    · exact le_trans hc1.2 (max_le (le_trans hc01.2 (max_le g001 g101))
        (le_trans hc11.2 (max_le g011 g111)))

/-- C3: every output value of `th_bilinear_interp_2d` (resp.
`th_bilinear_interp_3d`) at a given position lies within the closed interval
between the minimum and the maximum of the 4 (resp. 8) corner source values
gathered for that position: the blend is a convex combination of the
surrounding gathered values. -/
theorem C3_bilinear_convex_hull :
    (∀ H W : ℕ, ∀ xi : ℕ → ℕ → ℚ, ∀ coords : List (ℚ × ℚ), ∀ p : ℕ,
      p < coords.length →
      min (min (min (vals_lt2 H W xi (coords.getD p (0, 0)))
            (vals_rb2 H W xi (coords.getD p (0, 0))))
            (vals_lb2 H W xi (coords.getD p (0, 0))))
            (vals_rt2 H W xi (coords.getD p (0, 0)))
          ≤ (th_bilinear_interp_2d H W xi coords).getD p 0 ∧
        (th_bilinear_interp_2d H W xi coords).getD p 0
          ≤ max (max (max (vals_lt2 H W xi (coords.getD p (0, 0)))
              (vals_rb2 H W xi (coords.getD p (0, 0))))
              (vals_lb2 H W xi (coords.getD p (0, 0))))
              (vals_rt2 H W xi (coords.getD p (0, 0)))) ∧
    (∀ D H W : ℕ, ∀ xi : ℕ → ℕ → ℕ → ℚ, ∀ coords : List (ℚ × ℚ × ℚ), ∀ p : ℕ,
      p < coords.length →
      min (min (min (min (min (min (min (vals3 D H W xi (coords.getD p (0, 0, 0)) 0 0 0)
            (vals3 D H W xi (coords.getD p (0, 0, 0)) 1 1 1))
            (vals3 D H W xi (coords.getD p (0, 0, 0)) 0 0 1))
            (vals3 D H W xi (coords.getD p (0, 0, 0)) 0 1 0))
            (vals3 D H W xi (coords.getD p (0, 0, 0)) 0 1 1))
            (vals3 D H W xi (coords.getD p (0, 0, 0)) 1 0 0))
            (vals3 D H W xi (coords.getD p (0, 0, 0)) 1 1 0))
            (vals3 D H W xi (coords.getD p (0, 0, 0)) 1 0 1)
          ≤ (th_bilinear_interp_3d D H W xi coords).getD p 0 ∧
        (th_bilinear_interp_3d D H W xi coords).getD p 0
          ≤ max (max (max (max (max (max (max (vals3 D H W xi (coords.getD p (0, 0, 0)) 0 0 0)
              (vals3 D H W xi (coords.getD p (0, 0, 0)) 1 1 1))
              (vals3 D H W xi (coords.getD p (0, 0, 0)) 0 0 1))
              (vals3 D H W xi (coords.getD p (0, 0, 0)) 0 1 0))
              (vals3 D H W xi (coords.getD p (0, 0, 0)) 0 1 1))
              (vals3 D H W xi (coords.getD p (0, 0, 0)) 1 0 0))
              (vals3 D H W xi (coords.getD p (0, 0, 0)) 1 1 0))
              (vals3 D H W xi (coords.getD p (0, 0, 0)) 1 0 1)) := by
  constructor
  · intro H W xi coords p hp
    unfold th_bilinear_interp_2d
    rw [getD_map_of_lt _ _ _ hp _ (0, 0)]
    exact bilinear2_point_bounds H W xi (coords.getD p (0, 0))
  · intro D H W xi coords p hp
    unfold th_bilinear_interp_3d
    rw [getD_map_of_lt _ _ _ hp _ (0, 0, 0)]
    exact bilinear3_point_bounds D H W xi (coords.getD p (0, 0, 0))

theorem C3_bilinear_convex_hull_witness :
    min (min (min (vals_lt2 2 2 (fun h w => (10 : ℚ) * h + w) ((1 / 2 : ℚ), (3 / 2 : ℚ)))
        (vals_rb2 2 2 (fun h w => (10 : ℚ) * h + w) ((1 / 2 : ℚ), (3 / 2 : ℚ))))
        (vals_lb2 2 2 (fun h w => (10 : ℚ) * h + w) ((1 / 2 : ℚ), (3 / 2 : ℚ))))
        (vals_rt2 2 2 (fun h w => (10 : ℚ) * h + w) ((1 / 2 : ℚ), (3 / 2 : ℚ)))
      ≤ (th_bilinear_interp_2d 2 2 (fun h w => (10 : ℚ) * h + w)
          [((1 / 2 : ℚ), (3 / 2 : ℚ))]).getD 0 0 ∧
    (th_bilinear_interp_2d 2 2 (fun h w => (10 : ℚ) * h + w)
        [((1 / 2 : ℚ), (3 / 2 : ℚ))]).getD 0 0
      ≤ max (max (max (vals_lt2 2 2 (fun h w => (10 : ℚ) * h + w) ((1 / 2 : ℚ), (3 / 2 : ℚ)))
          (vals_rb2 2 2 (fun h w => (10 : ℚ) * h + w) ((1 / 2 : ℚ), (3 / 2 : ℚ))))
          (vals_lb2 2 2 (fun h w => (10 : ℚ) * h + w) ((1 / 2 : ℚ), (3 / 2 : ℚ))))
          (vals_rt2 2 2 (fun h w => (10 : ℚ) * h + w) ((1 / 2 : ℚ), (3 / 2 : ℚ))) :=
  C3_bilinear_convex_hull.1 2 2 (fun h w => (10 : ℚ) * h + w)
    [((1 / 2 : ℚ), (3 / 2 : ℚ))] 0 (by norm_num)

/-- Validation errors of `th_random_choice`. -/
inductive RCError where
  | probNotSumOne
  | replaceRequired
deriving DecidableEq

/-- Validation control flow of `th_random_choice`: with a probability vector
`p`, the function first raises the invalid-probability error when
`abs(1.0 - sum(p)) > 1e-3`, and otherwise raises the invalid-configuration
error when `replace` is false; with `p` absent neither check runs.  The
sampling itself is random and outside this embedding. -/
def th_random_choice_validation (p : Option (List ℚ)) (re : Bool) :
    Option RCError :=
  match p with
  | none => none
  | some q =>
      if |1 - q.sum| > 1 / 1000 then some RCError.probNotSumOne
      else if re = false then some RCError.replaceRequired
      else none

/-- C6: with a probability vector `p`, `th_random_choice` raises the
invalid-probability error iff `|1 - sum p| > 1e-3`; when that check passes it
raises the invalid-configuration error iff `replace = false`; and with `p`
absent no validation error is raised for any `replace`. -/
theorem C6_random_choice_validation_iff (q : List ℚ) (re : Bool) :
    (th_random_choice_validation (some q) re = some RCError.probNotSumOne ↔
      |1 - q.sum| > 1 / 1000) ∧
    (¬(|1 - q.sum| > 1 / 1000) →
      (th_random_choice_validation (some q) re = some RCError.replaceRequired ↔
        re = false)) ∧
    th_random_choice_validation none re = none := by
  have he : th_random_choice_validation (some q) re
      = if |1 - q.sum| > 1 / 1000 then some RCError.probNotSumOne
        else if re = false then some RCError.replaceRequired else none := rfl
  refine ⟨?_, ?_, rfl⟩
  · rw [he]
    split_ifs with h1 h2
    · exact ⟨fun _ => h1, fun _ => rfl⟩
    · exact ⟨fun heq => absurd (Option.some.inj heq) (by decide),
        fun hgt => absurd hgt h1⟩
    · exact ⟨fun heq => heq.elim, fun hgt => absurd hgt h1⟩
  · intro h1
    rw [he, if_neg h1]
    split_ifs with h2
    · exact ⟨fun _ => h2, fun _ => rfl⟩
    · exact ⟨fun heq => heq.elim, fun hre => absurd hre h2⟩

theorem C6_random_choice_validation_witness :
    th_random_choice_validation (some [1 / 2]) true = some RCError.probNotSumOne ∧
    th_random_choice_validation (some [1 / 2, 1 / 2]) false
      = some RCError.replaceRequired ∧
    th_random_choice_validation none false = none := by
  have h1 := C6_random_choice_validation_iff [1 / 2] true
  have h2 := C6_random_choice_validation_iff [1 / 2, 1 / 2] false
  refine ⟨h1.1.mpr ?_, (h2.2.1 (by norm_num)).mpr rfl, h2.2.2⟩
  have hs : |1 - ([1 / 2] : List ℚ).sum| = 1 / 2 := by
    rw [show (1 : ℚ) - ([1 / 2] : List ℚ).sum = 1 / 2 by norm_num]
    exact abs_of_pos (by norm_num)
  rw [gt_iff_lt, hs]
  norm_num

/-- Embedding of `th_pearsonr(x, y)` over the reals: subtract the means,
take the dot product of the centered sequences, and divide by the product of
their Euclidean norms. -/
noncomputable def th_pearsonr (x y : List ℝ) : ℝ :=
  let mean_x := x.sum / x.length
  let mean_y := y.sum / y.length
  let xm := x.map (fun a => a - mean_x)
  let ym := y.map (fun a => a - mean_y)
  let r_num := (List.zipWith (· * ·) xm ym).sum
  let r_den := Real.sqrt ((List.zipWith (· * ·) xm xm).sum) *
               Real.sqrt ((List.zipWith (· * ·) ym ym).sum)
  r_num / r_den

theorem zipWith_mul_self (l : List ℝ) :
    List.zipWith (· * ·) l l = l.map (fun a => a * a) := by
  induction l with
  | nil => rfl
  | cons a t ih => simp [ih]

/-- C8: for every 1-D sequence with some element different from its mean,
the self-correlation `th_pearsonr x x` is exactly `1`: the numerator
`xm ⬝ xm` equals the denominator `‖xm‖₂ · ‖xm‖₂` exactly. -/
theorem C8_pearsonr_self (x : List ℝ) (h : ∃ a ∈ x, a ≠ x.sum / x.length) :
    th_pearsonr x x = 1 := by
  obtain ⟨a, ha, hne⟩ := h
  unfold th_pearsonr
  dsimp only
  set m := x.sum / x.length with hm
  set S := (List.zipWith (· * ·) (x.map (fun v => v - m))
    (x.map (fun v => v - m))).sum with hS
  have hSeq : S = ((x.map (fun v => v - m)).map (fun v => v * v)).sum := by
    rw [hS, zipWith_mul_self]
  have hnn : ∀ b ∈ (x.map (fun v => v - m)).map (fun v => v * v), (0 : ℝ) ≤ b := by
    intro b hb
    obtain ⟨u, _, rfl⟩ := List.mem_map.mp hb
    exact mul_self_nonneg u
  have hmem : (a - m) * (a - m) ∈ (x.map (fun v => v - m)).map (fun v => v * v) :=
    List.mem_map.mpr ⟨a - m, List.mem_map.mpr ⟨a, ha, rfl⟩, rfl⟩
  have hterm : 0 < (a - m) * (a - m) := mul_self_pos.mpr (sub_ne_zero.mpr hne)
  have hpos : 0 < S := by
    rw [hSeq]
    exact lt_of_lt_of_le hterm (List.single_le_sum hnn _ hmem)
  rw [Real.mul_self_sqrt (le_of_lt hpos)]
  exact div_self (ne_of_gt hpos)

theorem C8_pearsonr_self_witness : th_pearsonr [1, 2] [1, 2] = 1 := by
  apply C8_pearsonr_self
  refine ⟨1, by norm_num, ?_⟩
  norm_num
